import Mathlib

/-!
Shallow embedding of the core of rsc/gerrit (the `review` command): the
diff renderer (`formatUnifiedDiff`), the word wrapper (`wrap`), the
change-summary document writer-back (`writeCL`), the patch-set document
writer-back (`writePatchSet`) with its draft reconciliation, and the
patch-set document renderer (`showPatchSet`).

Conventions of the embedding:
* Go strings are modelled as Lean `String`s (or `List Char` where the
  claims quantify over character positions); Go byte indices become
  character indices, which agree on the ASCII documents the tool handles.
* Go `int` line counters that can be negative are modelled as `Int`;
  counters that stay positive are `Nat`.
* The ambient Gerrit client is modelled as an explicit oracle: the k-th
  `SuggestReviewers` call returns `suggest k`, and `AddReviewer e` fails
  iff `addFails e`.  All other remote mutation calls only log on failure
  in the source, so they are modelled as succeeding; the embedding
  records every attempted call as an `Action`.
* The dry-run flag `-n` (`*flagN`) is `false` throughout: the claims are
  about the real mutation path.
-/

set_option autoImplicit false

namespace Gerrit

/-! ### String helpers (review/show.go) -/

/-- Embeds `shortEmail` (show.go): everything before the first `@`,
or the whole string when there is no `@`. -/
def shortEmail (x : String) : String :=
  String.mk (x.data.takeWhile (fun c => c ≠ '@'))

/-- Embeds `strings.TrimSpace`: drop leading and trailing whitespace.
(Defined on the character list so that proofs and concrete evaluation
avoid the position-based recursion of the String library.) -/
def goTrim (s : String) : String :=
  String.mk (((s.data.dropWhile Char.isWhitespace).reverse.dropWhile Char.isWhitespace).reverse)

/-- Embeds `strings.HasPrefix`. -/
def goHasPrefix (s pre : String) : Bool :=
  pre.data.isPrefixOf s.data

/-- Embeds `strings.HasSuffix`. -/
def goHasSuffix (s suf : String) : Bool :=
  suf.data.isSuffixOf s.data

/-- Accumulator (in reverse) based splitting of a character list into
maximal whitespace-free runs. -/
def fieldsAux : List Char → List Char → List (List Char)
  | [], acc => if acc = [] then [] else [acc.reverse]
  | c :: rest, acc =>
    if c.isWhitespace then
      if acc = [] then fieldsAux rest [] else acc.reverse :: fieldsAux rest []
    else fieldsAux rest (c :: acc)

/-- Embeds `strings.Fields`: whitespace-separated tokens, no empties. -/
def goFields (s : String) : List String :=
  (fieldsAux s.data []).map String.mk

/-- Embeds `strconv.Atoi` as used by `writeCL`: Go discards the error and
keeps the `int` result, which is `0` whenever the string is not a valid
decimal integer (an optional sign followed by at least one digit). -/
def goAtoi (s : String) : Int :=
  let core (sign : Int) (ds : List Char) : Int :=
    if ds ≠ [] ∧ ds.all Char.isDigit then
      sign * (ds.foldl (fun n c => n * 10 + (c.toNat - '0'.toNat)) 0 : Nat)
    else 0
  match s.data with
  | '+' :: ds => core 1 ds
  | '-' :: ds => core (-1) ds
  | ds => core 1 ds

/-! ### The 80-column word wrapper `wrap` (show.go lines 93-115) -/

/-- Embeds `strings.Replace(t, "\r\n", "\n", -1)`: non-overlapping
left-to-right replacement. -/
def replaceCRLF : List Char → List Char
  | [] => []
  | '\r' :: '\n' :: rest => '\n' :: replaceCRLF rest
  | c :: rest => c :: replaceCRLF rest

/-- Embeds `strings.Split(t, "\n")`: the newline-separated groups, with
the separators removed.  Never returns `[]`. -/
def splitNL : List Char → List (List Char)
  | [] => [[]]
  | c :: rest =>
    match splitNL rest with
    | [] => [[]]
    | g :: gs => if c = '\n' then [] :: g :: gs else (c :: g) :: gs

/-- Embeds `strings.LastIndex(l, " ")` on a character list: the index of
the last space, if any. -/
def lastSpaceIdx : List Char → Option Nat
  | [] => none
  | c :: rest =>
    match lastSpaceIdx rest with
    | some i => some (i + 1)
    | none => if c = ' ' then some 0 else none

/-- Embeds the break-position computation of `wrap`'s inner loop:
`i := strings.LastIndex(s[:max], " "); if i < 0 { i = max - 1 }; i++`
with `max = 80`.  The returned value is the length of the emitted chunk. -/
def breakLen (s : List Char) : Nat :=
  match lastSpaceIdx (s.take 80) with
  | some i => i + 1
  | none => 80

/-- Embeds `wrap`'s inner `for len(s) > max` loop, producing the emitted
line segments (the output lines with the `"\n" + prefix` joins removed).
The fuel argument bounds the iteration count; `wrapSegs` supplies
sufficient fuel. -/
def wrapSegsF : Nat → List Char → List (List Char)
  | 0, s => [s]
  | fuel + 1, s =>
    if s.length ≤ 80 then [s]
    else s.take (breakLen s) :: wrapSegsF fuel (s.drop (breakLen s))

/-- Segments of one logical line as emitted by `wrap`. -/
def wrapSegs (s : List Char) : List (List Char) :=
  wrapSegsF s.length s

/-- Embeds the per-input-line part of `wrap`: segments joined by a
newline and the continuation prefix. -/
def wrapLine (pfx : List Char) (s : List Char) : List Char :=
  List.intercalate ('\n' :: pfx) (wrapSegs s)

/-- Embeds `wrap` (show.go): CRLF normalisation, split into lines, wrap
each line at 80 columns, join with `"\n" + prefix`. -/
def wrap (t : List Char) (pfx : List Char) : List Char :=
  List.intercalate ('\n' :: pfx) ((splitNL (replaceCRLF t)).map (wrapLine pfx))

/-- String-level `wrap`, used by the document renderers. -/
def wrapStr (t pfx : String) : String :=
  String.mk (wrap t.data pfx.data)

/-! Facts about the wrapper needed for claim C10. -/

theorem lastSpaceIdx_lt_length {l : List Char} {i : Nat}
    (h : lastSpaceIdx l = some i) : i < l.length := by
  induction l generalizing i with
  | nil => simp [lastSpaceIdx] at h
  | cons c rest ih =>
    simp only [lastSpaceIdx] at h
    cases hr : lastSpaceIdx rest with
    | some j =>
      rw [hr] at h
      cases h
      simpa using Nat.succ_lt_succ (ih hr)
    | none =>
      rw [hr] at h
      by_cases hc : c = ' '
      · simp only [if_pos hc, Option.some.injEq] at h
        simp [← h]
      · simp [if_neg hc] at h

theorem breakLen_pos (s : List Char) : 1 ≤ breakLen s := by
  unfold breakLen
  cases h : lastSpaceIdx (s.take 80) <;> simp

theorem breakLen_le (s : List Char) : breakLen s ≤ 80 := by
  unfold breakLen
  cases h : lastSpaceIdx (s.take 80) with
  | none => simp
  | some i =>
    have := lastSpaceIdx_lt_length h
    have hlen : (s.take 80).length ≤ 80 := by
      simp [List.length_take]
    simp only
    omega

theorem wrapSegsF_bound {fuel : Nat} {s : List Char} (h : s.length ≤ fuel) :
    ∀ seg ∈ wrapSegsF fuel s, seg.length ≤ 80 := by
  induction fuel generalizing s with
  | zero =>
    intro seg hseg
    have hs : s = [] := List.eq_nil_of_length_eq_zero (Nat.le_zero.mp h)
    subst hs
    simp only [wrapSegsF, List.mem_singleton] at hseg
    subst hseg
    simp
  | succ fuel ih =>
    intro seg hseg
    by_cases hlen : s.length ≤ 80
    · simp only [wrapSegsF, if_pos hlen, List.mem_singleton] at hseg
      subst hseg
      exact hlen
    · simp only [wrapSegsF, if_neg hlen, List.mem_cons] at hseg
      rcases hseg with rfl | hseg
      · calc (s.take (breakLen s)).length ≤ breakLen s := by
              simp [List.length_take]
          _ ≤ 80 := breakLen_le s
      · refine ih ?_ seg hseg
        have h1 := breakLen_pos s
        have h2 : (s.drop (breakLen s)).length = s.length - breakLen s := by
          simp [List.length_drop]
        omega

theorem wrapSegs_bound (s : List Char) : ∀ seg ∈ wrapSegs s, seg.length ≤ 80 :=
  wrapSegsF_bound (Nat.le_refl _)

theorem wrapSegsF_short {fuel : Nat} {s : List Char} (h : s.length ≤ 80) :
    wrapSegsF fuel s = [s] := by
  cases fuel with
  | zero => rfl
  | succ fuel => simp [wrapSegsF, if_pos h]

theorem wrapSegs_short {s : List Char} (h : s.length ≤ 80) : wrapSegs s = [s] :=
  wrapSegsF_short h

theorem lastSpaceIdx_get {l : List Char} {i : Nat}
    (h : lastSpaceIdx l = some i) : l[i]? = some ' ' := by
  induction l generalizing i with
  | nil => simp [lastSpaceIdx] at h
  | cons c rest ih =>
    simp only [lastSpaceIdx] at h
    cases hr : lastSpaceIdx rest with
    | some j =>
      rw [hr] at h
      cases h
      simpa using ih hr
    | none =>
      rw [hr] at h
      by_cases hc : c = ' '
      · simp only [if_pos hc, Option.some.injEq] at h
        simp [← h, hc]
      · simp [if_neg hc] at h

/-- Characterisation of `lastSpaceIdx` as the greatest space position. -/
theorem lastSpaceIdx_spec {l : List Char} {i : Nat}
    (hi : l[i]? = some ' ') (hmax : ∀ j, i < j → l[j]? ≠ some ' ') :
    lastSpaceIdx l = some i := by
  induction l generalizing i with
  | nil => simp at hi
  | cons c rest ih =>
    cases i with
    | zero =>
      simp at hi
      have hrest : lastSpaceIdx rest = none := by
        cases hr : lastSpaceIdx rest with
        | none => rfl
        | some j =>
          exfalso
          exact hmax (j + 1) (Nat.succ_pos _) (by simpa using lastSpaceIdx_get hr)
      simp [lastSpaceIdx, hrest, hi]
    | succ i' =>
      simp only [List.getElem?_cons_succ] at hi
      have hmax' : ∀ j, i' < j → rest[j]? ≠ some ' ' := by
        intro j hj
        have := hmax (j + 1) (Nat.succ_lt_succ hj)
        simpa using this
      have := ih hi hmax'
      simp [lastSpaceIdx, this]

theorem lastSpaceIdx_none {l : List Char} (h : ∀ j : Nat, l[j]? ≠ some ' ') :
    lastSpaceIdx l = none := by
  induction l with
  | nil => rfl
  | cons c rest ih =>
    have hc : c ≠ ' ' := by
      intro hc
      apply h 0
      simp [hc]
    have hrest : lastSpaceIdx rest = none := by
      refine ih (fun j => ?_)
      have := h (j + 1)
      simpa using this
    simp [lastSpaceIdx, hrest, hc]

theorem wrapSegs_long {s : List Char} (h : 80 < s.length) :
    (wrapSegs s).head? = some (s.take (breakLen s)) := by
  unfold wrapSegs
  obtain ⟨n, hn⟩ : ∃ n, s.length = n + 1 := ⟨s.length - 1, by omega⟩
  have hle : ¬ (s.length ≤ 80) := by omega
  rw [hn]
  simp [wrapSegsF, hle]

/-- C10: every line emitted by the word wrapper `wrap` — i.e. every
segment produced by its inner loop, excluding the continuation-line
indentation prefix — is at most 80 characters long; a line of more than
80 characters is broken right after the last space among its first 80
characters, or after exactly 80 characters when no such space exists;
and a line of at most 80 characters is kept intact. -/
theorem wrap_line_bound_c10 (s : List Char) :
    (∀ seg ∈ wrapSegs s, seg.length ≤ 80) ∧
    (s.length ≤ 80 → wrapSegs s = [s]) ∧
    (∀ i, 80 < s.length → i < 80 → s[i]? = some ' ' →
      (∀ j, i < j → j < 80 → s[j]? ≠ some ' ') →
      (wrapSegs s).head? = some (s.take (i + 1))) ∧
    (80 < s.length → (∀ j, j < 80 → s[j]? ≠ some ' ') →
      (wrapSegs s).head? = some (s.take 80)) := by
  refine ⟨wrapSegs_bound s, fun h => wrapSegs_short h, ?_, ?_⟩
  · intro i hlen hi hsp hmax
    have htake : (s.take 80)[i]? = some ' ' := by
      rwa [List.getElem?_take_of_lt hi]
    have hmax' : ∀ j, i < j → (s.take 80)[j]? ≠ some ' ' := by
      intro j hj
      by_cases hj80 : j < 80
      · rw [List.getElem?_take_of_lt hj80]
        exact hmax j hj hj80
      · rw [List.getElem?_eq_none]
        · simp
        · have : (s.take 80).length ≤ 80 := by simp [List.length_take]
          omega
    have hbrk : breakLen s = i + 1 := by
      unfold breakLen
      rw [lastSpaceIdx_spec htake hmax']
    rw [wrapSegs_long hlen, hbrk]
  · intro hlen hnone
    have hnone' : ∀ j : Nat, (s.take 80)[j]? ≠ some ' ' := by
      intro j
      by_cases hj80 : j < 80
      · rw [List.getElem?_take_of_lt hj80]
        exact hnone j hj80
      · rw [List.getElem?_eq_none]
        · simp
        · have : (s.take 80).length ≤ 80 := by simp [List.length_take]
          omega
    have hbrk : breakLen s = 80 := by
      unfold breakLen
      rw [lastSpaceIdx_none hnone']
    rw [wrapSegs_long hlen, hbrk]

/-- Witness for C10 at a concrete input: an 81-character line with no
space is broken after exactly 80 characters. -/
theorem wrap_line_bound_c10_witness :
    (wrapSegs (List.replicate 81 'a')).head? = some (List.replicate 80 'a') := by
  have h80 : (80 : Nat) < (List.replicate 81 'a').length := by simp
  have hsp : ∀ j, j < 80 → (List.replicate 81 'a')[j]? ≠ some ' ' := by
    intro j hj
    rw [List.getElem?_replicate]
    split <;> simp
  have h := (wrap_line_bound_c10 (List.replicate 81 'a')).2.2.2 h80 hsp
  rw [h]
  decide

/-! ### The unified diff renderer `formatUnifiedDiff` (show.go lines 426-532)

The Gerrit `DiffContent` entity is either a common block (`ab` non-empty,
`a`/`b` ignored by the renderer) or a replace block (`a` removed lines,
`b` added lines). -/

structure DiffContent where
  a : List String
  b : List String
  ab : List String
  deriving Repr, DecidableEq, Inhabited

structure DiffInfo where
  diffHeader : List String
  content : List DiffContent
  deriving Repr, DecidableEq

/-- Embeds the `Line` struct of show.go; `pfx` is the source's `Prefix`
field (one of `""` for headers, `" "`, `"-"`, `"+"`). -/
structure Line where
  pfx : String
  text : String
  old : Nat
  new : Nat
  deriving Repr, DecidableEq

/-- Embeds `isDecl` (show.go line 530): non-empty and the first character
is none of newline, space, tab, carriage return. -/
def isDecl (x : String) : Bool :=
  match x.data with
  | [] => false
  | c :: _ => c ≠ '\n' ∧ c ≠ ' ' ∧ c ≠ '\t' ∧ c ≠ '\r'

/-- Running declaration tracker: scanning a list of lines updates `decl`
to `" " ++ line` at every declaration-looking line, exactly as the
renderer's `decl` variable is updated. -/
def declScan (lines : List String) (decl : String) : String :=
  lines.foldl (fun d line => if isDecl line then " " ++ line else d) decl

/-- Embeds the `startDecl` truncation (show.go lines 520-522). -/
def trunc55 (s : String) : String :=
  if 55 < s.length then String.mk (s.data.take 50) ++ "..." else s

/-- Embeds the hunk header `Line` (show.go line 523). -/
def mkHeader (oldStart oldLen newStart newLen : Nat) (ann : String) : Line :=
  { pfx := "", old := 0, new := 0,
    text := "@@ -" ++ toString oldStart ++ "," ++ toString oldLen ++
            " +" ++ toString newStart ++ "," ++ toString newLen ++ " @@" ++ ann }

/-- Mutable state of the renderer's outer loop: the two line counters and
the current declaration annotation. -/
structure FDState where
  oldLine : Nat
  newLine : Nat
  decl : String
  deriving Repr, DecidableEq

/-- Embeds the context-line emission loop (show.go lines 489-496). -/
def fmtCommon : List String → FDState → List Line × FDState
  | [], st => ([], st)
  | line :: rest, st =>
    let st1 : FDState :=
      { oldLine := st.oldLine + 1, newLine := st.newLine + 1,
        decl := if isDecl line then " " ++ line else st.decl }
    let (out, st2) := fmtCommon rest st1
    (⟨" ", line, st.oldLine, st.newLine⟩ :: out, st2)

/-- Embeds the removed-line emission loop (show.go lines 498-501);
removed lines advance only the old counter and are never scanned for
declarations. -/
def fmtRemoved : List String → FDState → List Line × FDState
  | [], st => ([], st)
  | line :: rest, st =>
    let st1 : FDState := { st with oldLine := st.oldLine + 1 }
    let (out, st2) := fmtRemoved rest st1
    (⟨"-", line, st.oldLine, 0⟩ :: out, st2)

/-- Embeds the added-line emission loop (show.go lines 502-508). -/
def fmtAdded : List String → FDState → List Line × FDState
  | [], st => ([], st)
  | line :: rest, st =>
    let st1 : FDState :=
      { st with newLine := st.newLine + 1,
                decl := if isDecl line then " " ++ line else st.decl }
    let (out, st2) := fmtAdded rest st1
    (⟨"+", line, 0, st.newLine⟩ :: out, st2)

/-- Accumulator of one run's formatting: renderer state, the run's
`startDecl`, the (possibly clip-shifted) `oldStart`/`newStart`, and the
chunk lines collected so far. -/
structure RunAcc where
  st : FDState
  startDecl : String
  oldStart : Nat
  newStart : Nat
  chunk : List Line
  deriving Repr, DecidableEq

/-- Embeds the body of `for i, c := range run` (show.go lines 470-510).
`isFirst`/`isLast` stand for `i == 0` and `i == len(run)-1`.  In the
leading-clip branch the source updates `startDecl` alongside `decl`
while scanning the skipped lines; since `startDecl = decl` on entry to
the run's first chunk, the result of that joint update is the scanned
`decl`, which is how it is written here. -/
def fmtChunkStep (isFirst isLast : Bool) (c : DiffContent) (acc : RunAcc) : RunAcc :=
  if 0 < c.ab.length then
    if isFirst ∧ 3 < c.ab.length then
      let skip := c.ab.length - 3
      let decl1 := declScan (c.ab.take skip) acc.st.decl
      let st1 : FDState :=
        { oldLine := acc.st.oldLine + skip, newLine := acc.st.newLine + skip,
          decl := decl1 }
      let (out, st2) := fmtCommon (c.ab.drop skip) st1
      { st := st2, startDecl := decl1,
        oldStart := acc.oldStart + skip, newStart := acc.newStart + skip,
        chunk := acc.chunk ++ out }
    else if isLast ∧ 3 < c.ab.length then
      let (out, st2) := fmtCommon (c.ab.take 3) acc.st
      { acc with st := st2, chunk := acc.chunk ++ out }
    else
      let (out, st2) := fmtCommon c.ab acc.st
      { acc with st := st2, chunk := acc.chunk ++ out }
  else
    let (outA, st1) := fmtRemoved c.a acc.st
    let (outB, st2) := fmtAdded c.b st1
    { acc with st := st2, chunk := acc.chunk ++ outA ++ outB }

/-- Iterates `fmtChunkStep` over a run; the last chunk is the one whose
tail is empty. -/
def fmtChunks (isFirst : Bool) (cs : List DiffContent) (acc : RunAcc) : RunAcc :=
  match cs with
  | [] => acc
  | c :: rest => fmtChunks false rest (fmtChunkStep isFirst rest.isEmpty c acc)

/-- Embeds the run-collection index of the outer loop (show.go lines
445-453): the leading chunk is always included, then chunks are added
while their common block has at most `2*maxContext = 6` lines. -/
def extCount (l : List DiffContent) : Nat :=
  (l.takeWhile (fun c => c.ab.length ≤ 6)).length

/-- Embeds the counter correction after a run whose last chunk is a
clipped common block (show.go lines 513-518): the last `maxContext`
emitted context lines will be re-emitted by the next run, so the
counters are moved back by 3.  The `decl` field is untouched. -/
def rollback (run : List DiffContent) (st : FDState) : FDState :=
  match run.getLast? with
  | some c =>
    if 3 < c.ab.length then
      { st with oldLine := st.oldLine - 3, newLine := st.newLine - 3 }
    else st
  | none => st

/-- Embeds the outer `for len(content) > 0` loop of `formatUnifiedDiff`.
The fuel argument bounds the iteration count; each iteration consumes at
least one chunk, so `content.length` is always sufficient fuel. -/
def fmtRunsF : Nat → List DiffContent → FDState → List Line
  | 0, _, _ => []
  | _ + 1, [], _ => []
  | fuel + 1, c0 :: rest, st =>
    let i := 1 + extCount rest
    let content1 := (c0 :: rest).drop i
    let run :=
      match content1 with
      | c :: _ => if 6 < c.ab.length then (c0 :: rest).take (i + 1) else (c0 :: rest).take i
      | [] => (c0 :: rest).take i
    if content1 = [] ∧ run.length = 1 ∧ (run.headD default).ab ≠ [] then
      []
    else
      let acc := fmtChunks true run ⟨st, st.decl, st.oldLine, st.newLine, []⟩
      (mkHeader acc.oldStart (acc.st.oldLine - acc.oldStart) acc.newStart
          (acc.st.newLine - acc.newStart)
          (trunc55 acc.startDecl) :: acc.chunk) ++ fmtRunsF fuel content1 (rollback run acc.st)

/-- Embeds `formatUnifiedDiff` (show.go): the diff header lines followed
by the rendered hunks, starting from line counters 1/1 and an empty
declaration. -/
def formatUnifiedDiff (diff : DiffInfo) : List Line :=
  (diff.diffHeader.map (fun line => ⟨"", line, 0, 0⟩)) ++
    fmtRunsF diff.content.length diff.content ⟨1, 1, ""⟩

/-! Closed forms for the three emission loops, used to state and prove
the hunk-collapsing claim. -/

/-- Context lines numbered from `o`/`n`. -/
def ctxLines : List String → Nat → Nat → List Line
  | [], _, _ => []
  | l :: rest, o, n => ⟨" ", l, o, n⟩ :: ctxLines rest (o + 1) (n + 1)

/-- Removed lines numbered from `o`. -/
def delLines : List String → Nat → List Line
  | [], _ => []
  | l :: rest, o => ⟨"-", l, o, 0⟩ :: delLines rest (o + 1)

/-- Added lines numbered from `n`. -/
def addLines : List String → Nat → List Line
  | [], _ => []
  | l :: rest, n => ⟨"+", l, 0, n⟩ :: addLines rest (n + 1)

theorem fmtCommon_eq (ls : List String) (st : FDState) :
    fmtCommon ls st =
      (ctxLines ls st.oldLine st.newLine,
        ⟨st.oldLine + ls.length, st.newLine + ls.length, declScan ls st.decl⟩) := by
  induction ls generalizing st with
  | nil => simp [fmtCommon, ctxLines, declScan]
  | cons l rest ih =>
    have hds : declScan (l :: rest) st.decl =
        declScan rest (if isDecl l then " " ++ l else st.decl) := rfl
    simp only [fmtCommon, ih, Prod.mk.injEq, List.length_cons, hds]
    refine ⟨rfl, ?_⟩
    simp only [FDState.mk.injEq, eq_self_iff_true, true_and, and_true]
    omega

theorem fmtRemoved_eq (ls : List String) (st : FDState) :
    fmtRemoved ls st =
      (delLines ls st.oldLine, { st with oldLine := st.oldLine + ls.length }) := by
  induction ls generalizing st with
  | nil => simp [fmtRemoved, delLines]
  | cons l rest ih =>
    simp only [fmtRemoved, ih, Prod.mk.injEq, List.length_cons]
    refine ⟨rfl, ?_⟩
    simp only [FDState.mk.injEq, eq_self_iff_true, true_and, and_true]
    omega

theorem fmtAdded_eq (ls : List String) (st : FDState) :
    fmtAdded ls st =
      (addLines ls st.newLine,
        { st with newLine := st.newLine + ls.length, decl := declScan ls st.decl }) := by
  induction ls generalizing st with
  | nil => simp [fmtAdded, addLines, declScan]
  | cons l rest ih =>
    have hds : declScan (l :: rest) st.decl =
        declScan rest (if isDecl l then " " ++ l else st.decl) := rfl
    simp only [fmtAdded, ih, Prod.mk.injEq, List.length_cons, hds]
    refine ⟨rfl, ?_⟩
    simp only [FDState.mk.injEq, eq_self_iff_true, true_and, and_true]
    omega

/-- C3: a 10-line common block flanked by replace blocks yields two
hunks: the preceding hunk ends with exactly the first 3 context lines of
the block, the following hunk starts with exactly its last 3 context
lines, the 4 middle lines are omitted without any marker, and the line
counters silently advance by the full 10 lines across the collapsed
region (the first removed/added line after it is numbered
`start + 10`). -/
theorem hunk_collapse_c3 (a1 b1 a2 b2 ab : List String)
    (ha1 : a1 ≠ []) (hb1 : b1 ≠ []) (ha2 : a2 ≠ []) (hb2 : b2 ≠ [])
    (hab : ab.length = 10) :
    formatUnifiedDiff ⟨[], [⟨a1, b1, []⟩, ⟨[], [], ab⟩, ⟨a2, b2, []⟩]⟩ =
      mkHeader 1 (a1.length + 3) 1 (b1.length + 3) "" ::
        (delLines a1 1 ++ addLines b1 1 ++
          ctxLines (ab.take 3) (1 + a1.length) (1 + b1.length)) ++
      mkHeader (8 + a1.length) (3 + a2.length) (8 + b1.length) (3 + b2.length)
          (trunc55 (declScan (ab.take 7) (declScan (ab.take 3) (declScan b1 "")))) ::
        (ctxLines (ab.drop 7) (8 + a1.length) (8 + b1.length) ++
          delLines a2 (11 + a1.length) ++ addLines b2 (11 + b1.length)) := by
  have h6 : ¬ ((ab.length ≤ 6) = true) := by simp [hab]
  have h63 : 6 < ab.length := by omega
  have h30 : 3 < ab.length := by omega
  have h00 : 0 < ab.length := by omega
  have htk3 : (ab.take 3).length = 3 := by simp [List.length_take]; omega
  have hdp7 : (ab.drop 7).length = 3 := by simp [List.length_drop]; omega
  have hskip : ab.length - 3 = 7 := by omega
  simp only [formatUnifiedDiff, List.map_nil, List.nil_append, List.length_cons,
    List.length_nil]
  simp only [fmtRunsF, extCount, List.takeWhile_cons, hab, List.drop_succ_cons,
    List.drop_zero, List.take_succ_cons, List.take_zero]
  norm_num
  simp only [fmtChunks, List.isEmpty_cons, List.isEmpty_nil, fmtChunkStep,
    fmtCommon_eq, fmtRemoved_eq, fmtAdded_eq, hab, hskip]
  norm_num [htk3, hdp7, rollback, List.getLast?_cons_cons, List.getLast?_singleton, h30]
  refine ⟨?_, ?_, ?_⟩
  · have e1 : 1 + a1.length + 2 = a1.length + 3 := by omega
    have e2 : 1 + b1.length + 2 = b1.length + 3 := by omega
    rw [e1, e2]
    rfl
  · have e1 : 1 + a1.length + 7 = 8 + a1.length := by omega
    have e2 : 1 + b1.length + 7 = 8 + b1.length := by omega
    have e3 : 1 + a1.length + 7 + 3 + a2.length - (1 + a1.length + 7) = 3 + a2.length := by
      omega
    have e4 : 1 + b1.length + 7 + 3 + b2.length - (1 + b1.length + 7) = 3 + b2.length := by
      omega
    rw [e3, e4, e1, e2]
  · have e1 : 1 + a1.length + 7 = 8 + a1.length := by omega
    have e2 : 1 + b1.length + 7 = 8 + b1.length := by omega
    rw [e1, e2]
    have e3 : 8 + a1.length + 3 = 11 + a1.length := by omega
    have e4 : 8 + b1.length + 3 = 11 + b1.length := by omega
    rw [e3, e4]

/-- Witness for C3 at a concrete diff: a replace, ten common lines, and
another replace. -/
theorem hunk_collapse_c3_witness :
    formatUnifiedDiff ⟨[], [⟨["x"], ["y"], []⟩,
        ⟨[], [], ["c1", "c2", "c3", "c4", "c5", "c6", "c7", "c8", "c9", "c10"]⟩,
        ⟨["z"], ["w"], []⟩]⟩ =
      [⟨"", "@@ -1,4 +1,4 @@", 0, 0⟩,
       ⟨"-", "x", 1, 0⟩, ⟨"+", "y", 0, 1⟩,
       ⟨" ", "c1", 2, 2⟩, ⟨" ", "c2", 3, 3⟩, ⟨" ", "c3", 4, 4⟩,
       ⟨"", "@@ -9,4 +9,4 @@ c7", 0, 0⟩,
       ⟨" ", "c8", 9, 9⟩, ⟨" ", "c9", 10, 10⟩, ⟨" ", "c10", 11, 11⟩,
       ⟨"-", "z", 12, 0⟩, ⟨"+", "w", 0, 12⟩] := by
  have h := hunk_collapse_c3 ["x"] ["y"] ["z"] ["w"]
    ["c1", "c2", "c3", "c4", "c5", "c6", "c7", "c8", "c9", "c10"]
    (by decide) (by decide) (by decide) (by decide) (by decide)
  rw [h]
  decide

/-! ### Declaration annotations of hunk headers (claim C9)

The renderer's `decl` variable is updated while scanning context lines,
added lines, and the clipped prefix of a leading common block — never
removed lines.  The specification-side functions below compute, per
emitted hunk, "the most recent declaration-looking line seen before or
within the hunk's clipped prefix", where what counts as "seen" is a
parameter: `scannedOf` gives the lines the code actually scans
(context and added lines), `seenClaim` gives every line of the document
in order (including removed lines), which is the claim's literal
reading. -/

/-- Lines of a chunk scanned by the renderer's declaration tracker:
the common lines, or for a replace chunk only the added lines. -/
def scannedOf (c : DiffContent) : List String :=
  if 0 < c.ab.length then c.ab else c.b

/-- Lines of a chunk in document order, removed lines included (the
claim's literal notion of the lines "seen"). -/
def seenClaim (c : DiffContent) : List String :=
  if 0 < c.ab.length then c.ab else c.a ++ c.b

/-- Most recent declaration-looking line of a line sequence. -/
def lastDecl (lines : List String) : Option String :=
  (lines.filter (fun l => isDecl l)).getLast?

/-- The annotation value determined by a sequence of seen lines: the
most recent declaration-looking line, prefixed by one space, or the
empty string when there is none. -/
def declView (seen : List String) : String :=
  match lastDecl seen with
  | some l => " " ++ l
  | none => ""

/-- The clipped prefix of the upcoming hunk: when the next chunk is a
common block of more than `maxContext = 3` lines, its lines except the
last 3. -/
def clipOf : List DiffContent → List String
  | [] => []
  | c :: _ => if 3 < c.ab.length then c.ab.take (c.ab.length - 3) else []

/-- Specification-side annotations of the emitted hunk headers: one
annotation per hunk, equal to the truncated most recent
declaration-looking line among `seen` lines before the hunk plus the
hunk's clipped prefix.  The run decomposition mirrors `fmtRunsF`; the
`scan` parameter decides which lines of a chunk count as seen. -/
def hunkAnnsF (scan : DiffContent → List String) :
    Nat → List DiffContent → List String → List String
  | 0, _, _ => []
  | _ + 1, [], _ => []
  | fuel + 1, c0 :: rest, seen =>
    let i := 1 + extCount rest
    let content1 := (c0 :: rest).drop i
    let run :=
      match content1 with
      | c :: _ => if 6 < c.ab.length then (c0 :: rest).take (i + 1) else (c0 :: rest).take i
      | [] => (c0 :: rest).take i
    if content1 = [] ∧ run.length = 1 ∧ (run.headD default).ab ≠ [] then []
    else
      let clip := if 3 < c0.ab.length then c0.ab.take (c0.ab.length - 3) else []
      trunc55 (declView (seen ++ clip)) ::
        hunkAnnsF scan fuel content1 (seen ++ ((c0 :: rest).take i).flatMap scan)

/-- The hunk-header lines of a rendered hunk stream (the only emitted
lines with an empty prefix). -/
def headerLines (out : List Line) : List Line :=
  out.filter (fun l => l.pfx = "")

/-- Lines of a chunk scanned within one run: a trailing clipped common
block contributes only its first 3 lines; every other chunk contributes
`scannedOf`. -/
def chunkScan (isFirst isLast : Bool) (c : DiffContent) : List String :=
  if 0 < c.ab.length then
    if isFirst ∧ 3 < c.ab.length then c.ab
    else if isLast ∧ 3 < c.ab.length then c.ab.take 3
    else c.ab
  else c.b

/-- Lines scanned while formatting a run of chunks. -/
def chunkScanList (isFirst : Bool) : List DiffContent → List String
  | [] => []
  | c :: rest => chunkScan isFirst rest.isEmpty c ++ chunkScanList false rest

theorem declScan_append (xs ys : List String) (d : String) :
    declScan (xs ++ ys) d = declScan ys (declScan xs d) :=
  List.foldl_append _ _ _ _

theorem lastDecl_cons_of_some {x : String} {q' : List String} {l : String}
    (h : lastDecl q' = some l) : lastDecl (x :: q') = some l := by
  unfold lastDecl at h ⊢
  rw [List.filter_cons]
  by_cases hx : isDecl x
  · rw [if_pos hx]
    cases hf : q'.filter (fun l => isDecl l) with
    | nil => rw [hf] at h; simp at h
    | cons y ys =>
      rw [hf] at h
      rw [List.getLast?_cons_cons]
      exact h
  · rw [if_neg hx]
    exact h

theorem lastDecl_cons_of_none {x : String} {q' : List String}
    (h : lastDecl q' = none) :
    lastDecl (x :: q') = if isDecl x then some x else none := by
  unfold lastDecl at h ⊢
  have hf : q'.filter (fun l => isDecl l) = [] := List.getLast?_eq_none_iff.mp h
  rw [List.filter_cons, hf]
  by_cases hx : isDecl x <;> simp [hx]

theorem declScan_closed (q : List String) (d : String) :
    declScan q d =
      match lastDecl q with
      | some l => " " ++ l
      | none => d := by
  induction q generalizing d with
  | nil => simp [declScan, lastDecl]
  | cons x q' ih =>
    have hstep : declScan (x :: q') d =
        declScan q' (if isDecl x then " " ++ x else d) := rfl
    rw [hstep, ih]
    cases hq : lastDecl q' with
    | some l => simp [lastDecl_cons_of_some hq]
    | none =>
      rw [lastDecl_cons_of_none hq]
      by_cases hx : isDecl x <;> simp [hx]

theorem lastDecl_append_some {p q : List String} {l : String}
    (h : lastDecl q = some l) : lastDecl (p ++ q) = some l := by
  unfold lastDecl at *
  rw [List.filter_append, List.getLast?_append_of_ne_nil]
  · exact h
  · intro hnil
    rw [hnil] at h
    simp at h

theorem lastDecl_append_none {p q : List String}
    (h : lastDecl q = none) : lastDecl (p ++ q) = lastDecl p := by
  unfold lastDecl at *
  have hq : q.filter (fun l => isDecl l) = [] := by
    simpa [List.getLast?_eq_none_iff] using h
  rw [List.filter_append, hq, List.append_nil]

theorem lastDecl_none_of_prefix {p q : List String}
    (hp : p <+: q) (h : lastDecl q = none) : lastDecl p = none := by
  unfold lastDecl at *
  have hq : q.filter (fun l => isDecl l) = [] := by
    simpa [List.getLast?_eq_none_iff] using h
  have hsub : p.filter (fun l => isDecl l) <+: q.filter (fun l => isDecl l) :=
    hp.filter _
  rw [hq] at hsub
  have : p.filter (fun l => isDecl l) = [] := List.prefix_nil.mp hsub
  simp [this]

/-- Scanning `q` starting from the view of `seen ++ p`, for any prefix
`p` of `q`, lands at the view of `seen ++ q`: rescanning an
already-scanned prefix is harmless. -/
theorem declScan_absorb {p q : List String} (hp : p <+: q) (seen : List String) :
    declScan q (declView (seen ++ p)) = declView (seen ++ q) := by
  rw [declScan_closed]
  cases hq : lastDecl q with
  | some l =>
    simp only [declView, lastDecl_append_some hq]
  | none =>
    have hpn : lastDecl p = none := lastDecl_none_of_prefix hp hq
    simp only [declView, lastDecl_append_none hq, lastDecl_append_none hpn]

theorem ctxLines_pfx (ls : List String) (o n : Nat) :
    ∀ ln ∈ ctxLines ls o n, ln.pfx = " " := by
  induction ls generalizing o n with
  | nil => simp [ctxLines]
  | cons l rest ih =>
    intro ln hln
    rcases hln with _ | hln
    · rfl
    · exact ih _ _ ln (by assumption)

theorem delLines_pfx (ls : List String) (o : Nat) :
    ∀ ln ∈ delLines ls o, ln.pfx = "-" := by
  induction ls generalizing o with
  | nil => simp [delLines]
  | cons l rest ih =>
    intro ln hln
    rcases hln with _ | hln
    · rfl
    · exact ih _ ln (by assumption)

theorem addLines_pfx (ls : List String) (n : Nat) :
    ∀ ln ∈ addLines ls n, ln.pfx = "+" := by
  induction ls generalizing n with
  | nil => simp [addLines]
  | cons l rest ih =>
    intro ln hln
    rcases hln with _ | hln
    · rfl
    · exact ih _ ln (by assumption)

theorem fmtChunkStep_decl (f l : Bool) (c : DiffContent) (acc : RunAcc) :
    (fmtChunkStep f l c acc).st.decl = declScan (chunkScan f l c) acc.st.decl := by
  unfold fmtChunkStep chunkScan
  by_cases h0 : 0 < c.ab.length
  · simp only [if_pos h0]
    by_cases h1 : (f : Prop) ∧ 3 < c.ab.length
    · simp only [if_pos h1, fmtCommon_eq]
      rw [← declScan_append, List.take_append_drop]
    · simp only [if_neg h1]
      by_cases h2 : (l : Prop) ∧ 3 < c.ab.length
      · simp only [if_pos h2, fmtCommon_eq]
      · simp only [if_neg h2, fmtCommon_eq]
  · simp only [if_neg h0, fmtRemoved_eq, fmtAdded_eq]

theorem fmtChunkStep_startDecl (f l : Bool) (c : DiffContent) (acc : RunAcc) :
    (fmtChunkStep f l c acc).startDecl =
      if (f : Prop) ∧ 3 < c.ab.length then
        declScan (c.ab.take (c.ab.length - 3)) acc.st.decl
      else acc.startDecl := by
  unfold fmtChunkStep
  by_cases h0 : 0 < c.ab.length
  · simp only [if_pos h0]
    by_cases h1 : (f : Prop) ∧ 3 < c.ab.length
    · simp only [if_pos h1, fmtCommon_eq]
    · simp only [if_neg h1]
      by_cases h2 : (l : Prop) ∧ 3 < c.ab.length
      · simp only [if_pos h2, fmtCommon_eq]
      · simp only [if_neg h2, fmtCommon_eq]
  · have h1 : ¬ ((f : Prop) ∧ 3 < c.ab.length) := by
      rintro ⟨-, h3⟩
      omega
    simp only [if_neg h0, if_neg h1, fmtRemoved_eq, fmtAdded_eq]

theorem fmtChunkStep_chunk (f l : Bool) (c : DiffContent) (acc : RunAcc) :
    ∃ extra, (fmtChunkStep f l c acc).chunk = acc.chunk ++ extra ∧
      ∀ ln ∈ extra, ln.pfx ≠ "" := by
  unfold fmtChunkStep
  by_cases h0 : 0 < c.ab.length
  · simp only [if_pos h0]
    by_cases h1 : (f : Prop) ∧ 3 < c.ab.length
    · simp only [if_pos h1, fmtCommon_eq]
      refine ⟨_, rfl, fun ln hln => ?_⟩
      rw [ctxLines_pfx _ _ _ ln hln]
      simp
    · simp only [if_neg h1]
      by_cases h2 : (l : Prop) ∧ 3 < c.ab.length
      · simp only [if_pos h2, fmtCommon_eq]
        refine ⟨_, rfl, fun ln hln => ?_⟩
        rw [ctxLines_pfx _ _ _ ln hln]
        simp
      · simp only [if_neg h2, fmtCommon_eq]
        refine ⟨_, rfl, fun ln hln => ?_⟩
        rw [ctxLines_pfx _ _ _ ln hln]
        simp
  · simp only [if_neg h0, fmtRemoved_eq, fmtAdded_eq]
    refine ⟨_, by rw [List.append_assoc], fun ln hln => ?_⟩
    rcases List.mem_append.mp hln with hln | hln
    · rw [delLines_pfx _ _ ln hln]
      simp
    · rw [addLines_pfx _ _ ln hln]
      simp

theorem fmtChunks_decl (cs : List DiffContent) :
    ∀ (f : Bool) (acc : RunAcc),
      (fmtChunks f cs acc).st.decl = declScan (chunkScanList f cs) acc.st.decl := by
  induction cs with
  | nil => intro f acc; simp [fmtChunks, chunkScanList, declScan]
  | cons c rest ih =>
    intro f acc
    show (fmtChunks false rest (fmtChunkStep f rest.isEmpty c acc)).st.decl = _
    rw [ih false, fmtChunkStep_decl]
    show _ = declScan (chunkScan f rest.isEmpty c ++ chunkScanList false rest) acc.st.decl
    rw [declScan_append]

theorem fmtChunks_false_startDecl (cs : List DiffContent) :
    ∀ acc : RunAcc, (fmtChunks false cs acc).startDecl = acc.startDecl := by
  induction cs with
  | nil => intro acc; rfl
  | cons c rest ih =>
    intro acc
    show (fmtChunks false rest (fmtChunkStep false rest.isEmpty c acc)).startDecl = _
    rw [ih, fmtChunkStep_startDecl]
    simp

theorem fmtChunks_startDecl (c0 : DiffContent) (rest : List DiffContent) (acc : RunAcc) :
    (fmtChunks true (c0 :: rest) acc).startDecl =
      if 3 < c0.ab.length then declScan (c0.ab.take (c0.ab.length - 3)) acc.st.decl
      else acc.startDecl := by
  show (fmtChunks false rest (fmtChunkStep true rest.isEmpty c0 acc)).startDecl = _
  rw [fmtChunks_false_startDecl, fmtChunkStep_startDecl]
  simp

theorem fmtChunks_chunk (cs : List DiffContent) :
    ∀ (f : Bool) (acc : RunAcc),
      ∃ extra, (fmtChunks f cs acc).chunk = acc.chunk ++ extra ∧
        ∀ ln ∈ extra, ln.pfx ≠ "" := by
  induction cs with
  | nil => intro f acc; exact ⟨[], by simp [fmtChunks], by simp⟩
  | cons c rest ih =>
    intro f acc
    obtain ⟨e1, he1, hp1⟩ := fmtChunkStep_chunk f rest.isEmpty c acc
    obtain ⟨e2, he2, hp2⟩ := ih false (fmtChunkStep f rest.isEmpty c acc)
    refine ⟨e1 ++ e2, ?_, ?_⟩
    · show (fmtChunks false rest (fmtChunkStep f rest.isEmpty c acc)).chunk = _
      rw [he2, he1, List.append_assoc]
    · intro ln hln
      rcases List.mem_append.mp hln with h | h
      · exact hp1 ln h
      · exact hp2 ln h

theorem chunkScan_not_last (f : Bool) (c : DiffContent) :
    chunkScan f false c = scannedOf c := by
  unfold chunkScan scannedOf
  by_cases h0 : 0 < c.ab.length
  · simp only [if_pos h0]
    by_cases h1 : (f : Prop) ∧ 3 < c.ab.length
    · simp [h1]
    · simp [h1]
  · simp [h0]

theorem chunkScanList_concat (cs : List DiffContent) (c : DiffContent) :
    ∀ f : Bool, cs ≠ [] →
      chunkScanList f (cs ++ [c]) = cs.flatMap scannedOf ++ chunkScan false true c := by
  induction cs with
  | nil => intro f h; exact absurd rfl h
  | cons d ds ih =>
    intro f _
    show chunkScan f (ds ++ [c]).isEmpty d ++ chunkScanList false (ds ++ [c]) = _
    have hne : (ds ++ [c]).isEmpty = false := by
      simp
    rw [hne, chunkScan_not_last]
    cases hds : ds with
    | nil =>
      show scannedOf d ++ (chunkScan false true c ++ chunkScanList false []) = _
      simp [chunkScanList]
    | cons d2 ds2 =>
      rw [← hds, ih false (by simp [hds])]
      simp [List.flatMap_cons, List.append_assoc]

theorem clipOf_cons (c : DiffContent) (rest : List DiffContent) :
    clipOf (c :: rest) = if 3 < c.ab.length then c.ab.take (c.ab.length - 3) else [] := rfl

theorem fmtRunsF_nil (fuel : Nat) (st : FDState) : fmtRunsF fuel [] st = [] := by
  cases fuel <;> rfl

theorem hunkAnnsF_nil (scan : DiffContent → List String) (fuel : Nat) (seen : List String) :
    hunkAnnsF scan fuel [] seen = [] := by
  cases fuel <;> rfl

theorem rollback_decl (run : List DiffContent) (st : FDState) :
    (rollback run st).decl = st.decl := by
  unfold rollback
  cases run.getLast? with
  | none => rfl
  | some c =>
    by_cases h : 3 < c.ab.length
    · simp [h]
    · simp [h]

theorem headerLines_build (o l n m : Nat) (a : String) (chunk tail : List Line)
    (hch : ∀ ln ∈ chunk, ln.pfx ≠ "") :
    headerLines ((mkHeader o l n m a :: chunk) ++ tail) =
      mkHeader o l n m a :: headerLines tail := by
  unfold headerLines
  rw [List.cons_append, List.filter_cons]
  have hpfx : ((mkHeader o l n m a).pfx = "") := rfl
  rw [if_pos (by simp [hpfx])]
  rw [List.filter_append]
  have : chunk.filter (fun l => l.pfx = "") = [] := by
    rw [List.filter_eq_nil_iff]
    intro x hx
    simp [hch x hx]
  rw [this, List.nil_append]

/-- Core invariant of the declaration tracking: if the renderer's `decl`
equals the view of the seen lines (up to a rescanned prefix of the
upcoming clip), every emitted hunk header is `mkHeader` of the
specification annotation of its hunk. -/
theorem hunkAnns_sound :
    ∀ (fuel : Nat) (content : List DiffContent) (st : FDState) (seen p : List String),
      content.length ≤ fuel →
      p <+: clipOf content →
      st.decl = declView (seen ++ p) →
      List.Forall₂ (fun (h : Line) (a : String) => ∃ o l n m : Nat, h = mkHeader o l n m a)
        (headerLines (fmtRunsF fuel content st))
        (hunkAnnsF scannedOf fuel content seen) := by
  intro fuel
  induction fuel with
  | zero =>
    intro content st seen p _ _ _
    simp [fmtRunsF, hunkAnnsF, headerLines]
  | succ fuel ih =>
    intro content st seen p hlen hp hdecl
    cases content with
    | nil => simp [fmtRunsF, hunkAnnsF, headerLines]
    | cons c0 rest =>
      have hdropc : (c0 :: rest).drop (1 + extCount rest) = rest.drop (extCount rest) := by
        rw [Nat.add_comm 1 (extCount rest), List.drop_succ_cons]
      have htakec : (c0 :: rest).take (1 + extCount rest) = c0 :: rest.take (extCount rest) := by
        rw [Nat.add_comm 1 (extCount rest), List.take_succ_cons]
      have hdw : rest.drop (extCount rest) =
          rest.dropWhile (fun c => c.ab.length ≤ 6) := by
        have h2 : List.drop (extCount rest)
            (rest.takeWhile (fun c => c.ab.length ≤ 6) ++
              rest.dropWhile (fun c => c.ab.length ≤ 6)) =
            rest.dropWhile (fun c => c.ab.length ≤ 6) :=
          List.drop_left' rfl
        rw [List.takeWhile_append_dropWhile] at h2
        exact h2
      simp only [fmtRunsF, hunkAnnsF, hdropc, hdw]
      cases hc1 : rest.dropWhile (fun c => c.ab.length ≤ 6) with
      | nil =>
        -- no further content: the run is `take i`; at most one header remains
        dsimp only
        by_cases hbr : ([] : List DiffContent) = [] ∧
            ((c0 :: rest).take (1 + extCount rest)).length = 1 ∧
            (((c0 :: rest).take (1 + extCount rest)).headD default).ab ≠ []
        · rw [if_pos hbr, if_pos hbr]
          simp [headerLines]
        · rw [if_neg hbr, if_neg hbr]
          rw [fmtRunsF_nil, hunkAnnsF_nil]
          obtain ⟨extra, hex, hpf⟩ :=
            fmtChunks_chunk ((c0 :: rest).take (1 + extCount rest)) true
              ⟨st, st.decl, st.oldLine, st.newLine, []⟩
          rw [List.nil_append] at hex
          rw [hex, headerLines_build _ _ _ _ _ _ _ hpf]
          have hsd : (fmtChunks true ((c0 :: rest).take (1 + extCount rest))
              ⟨st, st.decl, st.oldLine, st.newLine, []⟩).startDecl =
              declView (seen ++
                (if 3 < c0.ab.length then c0.ab.take (c0.ab.length - 3) else [])) := by
            rw [htakec, fmtChunks_startDecl]
            show (if 3 < c0.ab.length then
                declScan (c0.ab.take (c0.ab.length - 3)) st.decl else st.decl) = _
            by_cases h3 : 3 < c0.ab.length
            · rw [if_pos h3, if_pos h3]
              have hclip : clipOf (c0 :: rest) = c0.ab.take (c0.ab.length - 3) := by
                rw [clipOf_cons, if_pos h3]
              rw [hclip] at hp
              rw [hdecl]
              exact declScan_absorb hp seen
            · rw [if_neg h3, if_neg h3]
              have hclip : clipOf (c0 :: rest) = [] := by
                rw [clipOf_cons, if_neg h3]
              rw [hclip] at hp
              have hpnil : p = [] := List.prefix_nil.mp hp
              rw [hdecl, hpnil]
          refine List.Forall₂.cons ?_ List.Forall₂.nil
          rw [hsd]
          exact ⟨_, _, _, _, rfl⟩
      | cons cbig rest1 =>
        -- the next chunk is the big common block that ended this run
        have hbig : 6 < cbig.ab.length := by
          have hh := List.head?_dropWhile_not (fun c => decide (c.ab.length ≤ 6)) rest
          rw [hc1] at hh
          simp only [List.head?_cons] at hh
          simpa using hh
        dsimp only
        rw [if_pos hbig]
        have hbr : ¬ ((cbig :: rest1 : List DiffContent) = [] ∧
            ((c0 :: rest).take (1 + extCount rest + 1)).length = 1 ∧
            (((c0 :: rest).take (1 + extCount rest + 1)).headD default).ab ≠ []) := by
          rintro ⟨h, -, -⟩
          exact List.cons_ne_nil _ _ h
        rw [if_neg hbr, if_neg hbr]
        -- deconstruct the run
        have hgetl : (c0 :: rest)[1 + extCount rest]? = some cbig := by
          rw [← List.head?_drop, hdropc, hdw, hc1, List.head?_cons]
        have hruncat : (c0 :: rest).take (1 + extCount rest + 1) =
            (c0 :: rest).take (1 + extCount rest) ++ [cbig] := by
          rw [List.take_succ, hgetl]
          rfl
        obtain ⟨extra, hex, hpf⟩ :=
          fmtChunks_chunk ((c0 :: rest).take (1 + extCount rest + 1)) true
            ⟨st, st.decl, st.oldLine, st.newLine, []⟩
        rw [List.nil_append] at hex
        rw [hex, headerLines_build _ _ _ _ _ _ _ hpf]
        refine List.Forall₂.cons ?_ ?_
        · have hsd : (fmtChunks true ((c0 :: rest).take (1 + extCount rest + 1))
              ⟨st, st.decl, st.oldLine, st.newLine, []⟩).startDecl =
              declView (seen ++
                (if 3 < c0.ab.length then c0.ab.take (c0.ab.length - 3) else [])) := by
            rw [hruncat, htakec, List.cons_append, fmtChunks_startDecl]
            show (if 3 < c0.ab.length then
                declScan (c0.ab.take (c0.ab.length - 3)) st.decl else st.decl) = _
            by_cases h3 : 3 < c0.ab.length
            · rw [if_pos h3, if_pos h3]
              have hclip : clipOf (c0 :: rest) = c0.ab.take (c0.ab.length - 3) := by
                rw [clipOf_cons, if_pos h3]
              rw [hclip] at hp
              rw [hdecl]
              exact declScan_absorb hp seen
            · rw [if_neg h3, if_neg h3]
              have hclip : clipOf (c0 :: rest) = [] := by
                rw [clipOf_cons, if_neg h3]
              rw [hclip] at hp
              have hpnil : p = [] := List.prefix_nil.mp hp
              rw [hdecl, hpnil]
          rw [hsd]
          exact ⟨_, _, _, _, rfl⟩
        · -- recursive call with the new invariant
          have hscan : chunkScan false true cbig = cbig.ab.take 3 := by
            unfold chunkScan
            rw [if_pos (by omega : 0 < cbig.ab.length)]
            rw [if_neg (by simp : ¬ ((false : Bool) ∧ 3 < cbig.ab.length))]
            rw [if_pos (by exact ⟨rfl, by omega⟩ : (true : Bool) ∧ 3 < cbig.ab.length)]
          have hdecl1 :
              (rollback ((c0 :: rest).take (1 + extCount rest + 1))
                (fmtChunks true ((c0 :: rest).take (1 + extCount rest + 1))
                  ⟨st, st.decl, st.oldLine, st.newLine, []⟩).st).decl =
              declView ((seen ++
                ((c0 :: rest).take (1 + extCount rest)).flatMap scannedOf) ++
                cbig.ab.take 3) := by
            rw [rollback_decl, fmtChunks_decl]
            show declScan _ st.decl = _
            rw [hruncat,
              chunkScanList_concat _ _ true (by rw [htakec]; exact List.cons_ne_nil _ _),
              hscan]
            rw [hdecl, List.append_assoc]
            refine declScan_absorb ?_ seen
            -- p is a prefix of the scanned lines of the run
            by_cases h3 : 3 < c0.ab.length
            · have hclip : clipOf (c0 :: rest) = c0.ab.take (c0.ab.length - 3) := by
                rw [clipOf_cons, if_pos h3]
              rw [hclip] at hp
              have h1 : p <+: c0.ab := hp.trans (List.take_prefix _ _)
              have h2 : scannedOf c0 = c0.ab := by
                unfold scannedOf
                rw [if_pos (by omega : 0 < c0.ab.length)]
              have h3' : ((c0 :: rest).take (1 + extCount rest)).flatMap scannedOf =
                  c0.ab ++ (rest.take (extCount rest)).flatMap scannedOf := by
                rw [htakec, List.flatMap_cons, h2]
              rw [h3']
              calc p <+: c0.ab := h1
                _ <+: _ := by
                    rw [List.append_assoc]
                    exact List.prefix_append _ _
            · have hclip : clipOf (c0 :: rest) = [] := by
                rw [clipOf_cons, if_neg h3]
              rw [hclip] at hp
              have hpnil : p = [] := List.prefix_nil.mp hp
              rw [hpnil]
              exact List.nil_prefix
          refine ih (cbig :: rest1) _ _ (cbig.ab.take 3) ?_ ?_ hdecl1
          · -- fuel bound
            have hlen1 : (rest.drop (extCount rest)).length = rest.length - extCount rest :=
              List.length_drop _ _
            rw [hdw, hc1] at hlen1
            simp only [List.length_cons] at hlen hlen1 ⊢
            omega
          · -- prefix of the next clip
            have hclip1 : clipOf (cbig :: rest1) = cbig.ab.take (cbig.ab.length - 3) := by
              rw [clipOf_cons, if_pos (by omega : 3 < cbig.ab.length)]
            rw [hclip1]
            have : cbig.ab.take 3 = (cbig.ab.take (cbig.ab.length - 3)).take 3 := by
              rw [List.take_take]
              congr 1
              omega
            rw [this]
            exact List.take_prefix _ _

/-- C9 (amended): for every diff content, the trailing annotation of
every emitted hunk header equals the most recent declaration-looking
line (non-empty, first character not space/tab/CR/LF) among the context,
added, and clipped-prefix lines — removed lines are never scanned — seen
before or within the hunk's clipped prefix, prefixed by one space and
truncated to its first 50 characters plus "..." exactly when its length
exceeds 55 characters (annotations of length at most 55 are emitted
unchanged). -/
theorem decl_ann_c9_amended :
    (∀ content : List DiffContent,
      List.Forall₂ (fun (h : Line) (a : String) => ∃ o l n m : Nat, h = mkHeader o l n m a)
        (headerLines (formatUnifiedDiff ⟨[], content⟩))
        (hunkAnnsF scannedOf content.length content [])) ∧
    (∀ s : String,
      (s.length ≤ 55 → trunc55 s = s) ∧
      (55 < s.length → trunc55 s = String.mk (s.data.take 50) ++ "...")) := by
  constructor
  · intro content
    have hd : (⟨1, 1, ""⟩ : FDState).decl = declView ([] ++ ([] : List String)) := by
      simp [declView, lastDecl]
    have h := hunkAnns_sound content.length content ⟨1, 1, ""⟩ [] []
      (Nat.le_refl _) List.nil_prefix hd
    simpa [formatUnifiedDiff] using h
  · intro s
    constructor
    · intro hle
      unfold trunc55
      rw [if_neg (by omega)]
    · intro hgt
      unfold trunc55
      rw [if_pos hgt]

/-- Witness for the amended C9 theorem at concrete inputs: a short
annotation is left unchanged, and a 60-character annotation is truncated
to 50 characters plus dots. -/
theorem decl_ann_c9_amended_witness :
    trunc55 "abc" = "abc" ∧
    trunc55 (String.mk (List.replicate 60 'x')) =
      String.mk (List.replicate 50 'x') ++ "..." := by
  constructor
  · exact (decl_ann_c9_amended.2 "abc").1 (by decide)
  · have h := (decl_ann_c9_amended.2 (String.mk (List.replicate 60 'x'))).2 (by decide)
    rw [h]
    decide

/-- C9 counterexample: the claim reads "the most recent
declaration-looking line seen before or within the hunk's clipped
prefix", but removed lines are never scanned by the renderer.  In this
diff the only declaration-looking line before the second hunk is the
removed line "olddecl"; the claim therefore requires the second header
to carry the annotation " olddecl", while the renderer emits it without
any annotation. -/
theorem decl_ann_c9_counterexample :
    ¬ List.Forall₂ (fun (h : Line) (a : String) => ∃ o l n m : Nat, h = mkHeader o l n m a)
      (headerLines (formatUnifiedDiff ⟨[], [⟨["olddecl"], [], []⟩,
        ⟨[], [], ["\ta", "\tb", "\tc", "\td", "\te", "\tf", "\tg"]⟩, ⟨["y"], [], []⟩]⟩))
      (hunkAnnsF seenClaim 3 [⟨["olddecl"], [], []⟩,
        ⟨[], [], ["\ta", "\tb", "\tc", "\td", "\te", "\tf", "\tg"]⟩, ⟨["y"], [], []⟩] []) := by
  intro hF
  have h1 : headerLines (formatUnifiedDiff ⟨[], [⟨["olddecl"], [], []⟩,
      ⟨[], [], ["\ta", "\tb", "\tc", "\td", "\te", "\tf", "\tg"]⟩, ⟨["y"], [], []⟩]⟩) =
      [⟨"", "@@ -1,4 +1,3 @@", 0, 0⟩, ⟨"", "@@ -6,4 +5,3 @@", 0, 0⟩] := by
    decide
  have h2 : hunkAnnsF seenClaim 3 [⟨["olddecl"], [], []⟩,
      ⟨[], [], ["\ta", "\tb", "\tc", "\td", "\te", "\tf", "\tg"]⟩, ⟨["y"], [], []⟩] [] =
      ["", " olddecl"] := by
    decide
  rw [h1, h2] at hF
  obtain ⟨o, l, n, m, heq⟩ := (List.forall₂_cons.mp (List.forall₂_cons.mp hF).2).1
  have htext : ("@@ -6,4 +5,3 @@" : String) = (mkHeader o l n m " olddecl").text :=
    congrArg Line.text heq
  have h3 : (mkHeader o l n m " olddecl").text.data.getLast? = some 'l' := by
    show ((("@@ -" ++ toString o ++ "," ++ toString l ++ " +" ++ toString n ++ "," ++
      toString m ++ " @@") ++ " olddecl") : String).data.getLast? = some 'l'
    rw [String.data_append, List.getLast?_append_of_ne_nil]
    · decide
    · decide
  rw [← htext] at h3
  exact absurd h3 (by decide)

/-! ### The change-summary writer-back `writeCL` (part_000 lines 15-168)

`writeCL` scans the edited change-summary document line by line,
dispatching on the `key:` of each `key: value` line, resolving the
`Reviewers:` line against the remote suggestion service, filtering label
votes, and finally publishing labels plus the free-text message in one
`SetReview` call — which is skipped entirely when any unknown summary
line was seen.  The Gerrit client is an oracle (`Remote`), every
attempted remote call is recorded as an `Action`, and the dry-run flag
is `false`. -/

structure AccountInfo where
  email : String
  deriving Repr, DecidableEq

/-- One entry of a SuggestReviewers response: the account's email, or
`none` when the suggestion's `Account` field is nil (e.g. a group). -/
abbrev Suggestion := Option String

/-- The remote client oracle: `suggest k` is the result of the k-th
SuggestReviewers call of this invocation (`none` models an error), and
`addFails e` tells whether `AddReviewer e` returns an error.  Remote
calls whose failure only appends to the error buffer in the source
(DeleteReviewer, SetReview, draft calls) are modelled as succeeding. -/
structure Remote where
  suggest : Nat → Option (List Suggestion)
  addFails : String → Bool

/-- Embeds the Gerrit `CommentInfo` entity (internal/gerrit), restricted
to the fields read or written by this tool.  `authorEmail = none` means
the comment is a draft (`IsDraft`); `updated` is an abstract timestamp
used only for ordering and header rendering. -/
structure CommentInfo where
  patchSet : Nat := 0
  id : String := ""
  path : String := ""
  side : String := ""
  line : Int := 0
  inReplyTo : String := ""
  message : String := ""
  updated : Nat := 0
  authorEmail : Option String := none
  deriving Repr, DecidableEq, Inhabited

/-- One attempted remote call. -/
inductive Action where
  | suggestReviewers (q : String) (cap : Nat)
  | addReviewer (email : String)
  | deleteReviewer (email : String)
  | setReview (labels : List (String × Int)) (message : String)
  | createDraft (revID : String) (c : CommentInfo)
  | deleteDraft (revID : String) (id : String)
  deriving Repr, DecidableEq

def isSetReview : Action → Bool
  | .setReview _ _ => true
  | _ => false

def isSuggest : Action → Bool
  | .suggestReviewers _ _ => true
  | _ => false

def isAddReviewer : Action → Bool
  | .addReviewer _ => true
  | _ => false

def isDeleteReviewer : Action → Bool
  | .deleteReviewer _ => true
  | _ => false

/-- The fields of the `CL`/`ChangeInfo` pair that `writeCL` reads. -/
structure CLSummary where
  reviewers : List AccountInfo
  ownerEmail : String
  labelNames : List String
  permittedLabels : List (String × List String)
  deriving Repr

/-- Embeds the `have` map of writeCL (part_000 lines 47-51): Go inserts
`have[shortEmail(e)] = e` and `have[e] = e` for each reviewer in order,
so a lookup returns the email of the last reviewer whose short or full
email equals the token, or `""` when there is none. -/
def haveLookup (reviewers : List AccountInfo) (f : String) : String :=
  match (reviewers.filter (fun r => shortEmail r.email = f ∨ r.email = f)).getLast? with
  | some r => r.email
  | none => ""

/-- Embeds `old.ChangeInfo.PermittedLabels[key]` (missing key ⇒ nil). -/
def permittedOf (permitted : List (String × List String)) (key : String) : List String :=
  match permitted.find? (fun p => p.1 = key) with
  | some p => p.2
  | none => []

/-- Map update `review.Labels[key] = v`. -/
def setLabel (ls : List (String × Int)) (k : String) (v : Int) : List (String × Int) :=
  if ls.any (fun p => p.1 = k) then ls.map (fun p => if p.1 = k then (k, v) else p)
  else ls ++ [(k, v)]

/-- Embeds the label-vote filtering of writeCL (part_000 lines 126-136):
each space-separated token of `value` is compared against each permitted
vote string after trimming it; every match assigns
`review.Labels[key] = Atoi(vote)`, so the last matching token wins. -/
def applyLabelVotes (ls : List (String × Int)) (key value : String)
    (allowed : List String) : List (String × Int) :=
  (goFields value).foldl
    (fun ls1 vote =>
      allowed.foldl
        (fun ls2 x => if vote = goTrim x then setLabel ls2 key (goAtoi vote) else ls2)
        ls1)
    ls

/-- Embeds the query normalisation of writeCL (part_000 lines 59-65):
append `@` when the token has none, then append the `"go"` domain hint
exactly when the query is two characters long. -/
def mkQuery (f : String) : String :=
  let q := if f.data.contains '@' then f else f ++ "@"
  if q.length = 2 then q ++ "go" else q

/-- Embeds the SuggestReviewers call pair of writeCL (part_000 lines
66-69): one call with result cap 10, retried exactly once on error when
the original token has at least 3 characters.  Returns the final result,
the calls made, and the next call index. -/
def suggestWithRetry (remote : Remote) (k : Nat) (f q : String) :
    Option (List Suggestion) × List Action × Nat :=
  match remote.suggest k with
  | some acct => (some acct, [Action.suggestReviewers q 10], k + 1)
  | none =>
    if 3 ≤ f.length then
      (remote.suggest (k + 1),
        [Action.suggestReviewers q 10, Action.suggestReviewers q 10], k + 2)
    else
      (none, [Action.suggestReviewers q 10], k + 1)

/-- Preferred-domain test of writeCL (part_000 line 84). -/
def preferred (email : String) : Bool :=
  goHasSuffix email "@golang.org" || goHasSuffix email "@google.com"

/-- Embeds the candidate scan of writeCL (part_000 lines 74-88): count
the preferred-domain candidates in `n`; `best` is the first candidate
email, overwritten by every preferred one; nil accounts are skipped. -/
def chooseBest (acct : List Suggestion) : Nat × String :=
  acct.foldl
    (fun (p : Nat × String) a =>
      match a with
      | none => p
      | some email =>
        let best := if p.2 = "" then email else p.2
        if preferred email then (p.1 + 1, email) else (p.1, best))
    (0, "")

/-- The `%q`-quoted token of the ambiguous-reviewer diagnostic (plain
tokens have no characters needing escapes). -/
def goQuote (f : String) : String := "\"" ++ f ++ "\""

/-- The full ambiguous-reviewer diagnostic line (part_000 lines 90-98),
listing every candidate email with a non-nil account. -/
def ambiguousMsg (f : String) (acct : List Suggestion) : String :=
  "ambiguous reviewer " ++ goQuote f ++ ":" ++
    acct.foldl (fun s a =>
      match a with
      | none => s
      | some email => s ++ " " ++ email) ""

/-- State threaded through the `Reviewers:` token loop: the call index,
the `kept` set, the attempted calls, and the diagnostic buffer. -/
structure RevState where
  k : Nat
  kept : List String
  actions : List Action
  errs : List String
  deriving Repr

/-- Embeds the body of `for _, f := range strings.Fields(value)`
(part_000 lines 54-111): a token matching a known reviewer is kept with
no remote call; otherwise the suggestion lookup runs, the selection
heuristic picks a candidate or records a diagnostic, and a successful
`AddReviewer` adds the candidate to `kept`. -/
def handleToken (cl : CLSummary) (remote : Remote) (st : RevState) (f : String) : RevState :=
  if haveLookup cl.reviewers f ≠ "" then
    { st with kept := haveLookup cl.reviewers f :: st.kept }
  else
    let q := mkQuery f
    let (res, calls, k1) := suggestWithRetry remote st.k f q
    let st1 := { st with k := k1, actions := st.actions ++ calls }
    match res with
    | none => { st1 with errs := st1.errs ++ ["unknown reviewer: " ++ f] }
    | some acct =>
      if acct.length = 0 then
        { st1 with errs := st1.errs ++ ["unknown reviewer: " ++ f] }
      else
        let nb := chooseBest acct
        if 1 < nb.1 ∨ (nb.1 = 0 ∧ 1 < acct.length) then
          { st1 with errs := st1.errs ++ [ambiguousMsg f acct] }
        else
          let st2 := { st1 with actions := st1.actions ++ [Action.addReviewer nb.2] }
          if remote.addFails nb.2 then
            { st2 with errs := st2.errs ++ ["adding reviewer " ++ nb.2 ++ ": error"] }
          else
            { st2 with kept := nb.2 :: st2.kept }

/-- Embeds the whole `Reviewers:` branch of writeCL (part_000 lines
46-124): `kept` starts with the owner's email (the source comments "why
the owner is a reviewer I don't know!"), the tokens are processed in
order, and a `DeleteReviewer` call is attempted for every previously
known reviewer not in `kept` (its failure only logs). -/
def handleReviewers (cl : CLSummary) (remote : Remote) (k0 : Nat) (value : String) :
    RevState :=
  let st := (goFields value).foldl (handleToken cl remote) ⟨k0, [cl.ownerEmail], [], []⟩
  let dels := (cl.reviewers.filter (fun r => ¬ st.kept.contains r.email)).map
    (fun r => Action.deleteReviewer r.email)
  { st with actions := st.actions ++ dels }

/-- Embeds `strings.SplitAfter(s, "\n")` on a character list: groups end
after each newline, with a final (possibly empty) group. -/
def splitAfterChar : List Char → List (List Char)
  | [] => [[]]
  | c :: rest =>
    match splitAfterChar rest with
    | [] => [[c]]
    | g :: gs => if c = '\n' then [c] :: g :: gs else (c :: g) :: gs

def splitAfterNL (s : String) : List String :=
  (splitAfterChar s.data).map String.mk

/-- Embeds `strings.Index(s, pat)` on character lists. -/
def indexOfSub (pat : List Char) : List Char → Option Nat
  | [] => if pat = [] then some 0 else none
  | c :: rest =>
    if pat.isPrefixOf (c :: rest) then some 0
    else
      match indexOfSub pat rest with
      | some i => some (i + 1)
      | none => none

/-- State of writeCL's line loop: the suggestion call index, the
accumulated `review.Labels`, the attempted calls, the diagnostic buffer,
the unknown-summary-line flag, and the character offset of the first
unconsumed line. -/
structure WriteCLState where
  k : Nat
  labels : List (String × Int)
  actions : List Action
  errs : List String
  parseError : Bool
  off : Nat
  deriving Repr

/-- Embeds writeCL's `for _, origLine := range strings.SplitAfter(...)`
loop (part_000 lines 30-139): blank and `#` lines are skipped, the scan
stops at the first line without a colon, and each `key: value` line is
dispatched to the Owner/Reviewers/label/unknown cases. -/
def writeCLLoop (cl : CLSummary) (remote : Remote) :
    List String → WriteCLState → WriteCLState
  | [], st => st
  | origLine :: rest, st =>
    let line := goTrim origLine
    if line = "" ∨ goHasPrefix line "#" then
      writeCLLoop cl remote rest { st with off := st.off + origLine.length }
    else
      match line.data.findIdx? (fun c => c = ':') with
      | none => st
      | some i =>
        let st := { st with off := st.off + origLine.length }
        let key := goTrim (String.mk (line.data.take i))
        let value := goTrim (String.mk (line.data.drop (i + 1)))
        if key = "Owner" then
          writeCLLoop cl remote rest st
        else if key = "Reviewers" then
          let r := handleReviewers cl remote st.k value
          writeCLLoop cl remote rest
            { st with k := r.k, actions := st.actions ++ r.actions,
                      errs := st.errs ++ r.errs }
        else if cl.labelNames.contains key then
          writeCLLoop cl remote rest
            { st with labels :=
                applyLabelVotes st.labels key value (permittedOf cl.permittedLabels key) }
        else
          writeCLLoop cl remote rest
            { st with errs := st.errs ++ ["unknown summary line: " ++ line],
                      parseError := true }

/-- Embeds `writeCL` (part_000 lines 15-168): scan the summary lines;
when any unknown summary line was seen, return without the final
`SetReview`; otherwise extract the free-text message between the scanned
region and the `"\nPatch Set "` marker (the literal placeholder counts
as empty) and attempt the single `SetReview` call carrying the label map
and the message.  (`review.Drafts = "PUBLISH_ALL_REVISIONS"` is a
constant field of that call and is not modelled separately.) -/
def writeCL (cl : CLSummary) (remote : Remote) (updated : String) : WriteCLState :=
  let st := writeCLLoop cl remote (splitAfterNL updated) ⟨0, [], [], [], false, 0⟩
  if st.parseError then st
  else
    let sdata := updated.data
    let comment :=
      match indexOfSub ("\n".data ++ "Patch Set ".data) sdata with
      | some i =>
        if st.off ≤ i then goTrim (String.mk ((sdata.drop st.off).take (i - st.off)))
        else ""
      | none => ""
    let comment := if comment = "<optional comment here>" then "" else comment
    { st with actions := st.actions ++ [Action.setReview st.labels comment] }

/-! Facts about label-vote filtering (claim C4). -/

theorem setLabel_any (ls : List (String × Int)) (k : String) (v : Int) :
    (setLabel ls k v).any (fun p => p.1 = k) = true := by
  unfold setLabel
  by_cases h : ls.any (fun p => p.1 = k)
  · rw [if_pos h]
    rw [List.any_eq_true] at h ⊢
    obtain ⟨p, hp, hk⟩ := h
    refine ⟨(k, v), List.mem_map.mpr ⟨p, hp, ?_⟩, by simp⟩
    simp only [decide_eq_true_eq] at hk
    rw [if_pos hk]
  · rw [if_neg h]
    rw [List.any_eq_true]
    exact ⟨(k, v), by simp, by simp⟩

theorem setLabel_overwrite (ls : List (String × Int)) (k : String) (v w : Int) :
    setLabel (setLabel ls k v) k w = setLabel ls k w := by
  by_cases h : ls.any (fun p => p.1 = k)
  · have h1 : setLabel ls k v = ls.map (fun p => if p.1 = k then (k, v) else p) := by
      unfold setLabel
      rw [if_pos h]
    have h2 : setLabel ls k w = ls.map (fun p => if p.1 = k then (k, w) else p) := by
      unfold setLabel
      rw [if_pos h]
    have hany : ((ls.map (fun p => if p.1 = k then (k, v) else p)).any
        (fun p => p.1 = k)) = true := by
      rw [← h1]
      exact setLabel_any ls k v
    rw [h1, h2]
    unfold setLabel
    rw [if_pos hany, List.map_map]
    refine List.map_congr_left fun p _ => ?_
    by_cases hk : p.1 = k <;> simp [hk]
  · have h1 : setLabel ls k v = ls ++ [(k, v)] := by
      unfold setLabel
      rw [if_neg h]
    have h2 : setLabel ls k w = ls ++ [(k, w)] := by
      unfold setLabel
      rw [if_neg h]
    have hany : ((ls ++ [(k, v)]).any (fun p => p.1 = k)) = true := by
      rw [← h1]
      exact setLabel_any ls k v
    rw [h1, h2]
    unfold setLabel
    rw [if_pos hany, List.map_append]
    have h3 : ls.map (fun p => if p.1 = k then (k, w) else p) = ls := by
      conv_rhs => rw [← List.map_id ls]
      refine List.map_congr_left fun p hp => ?_
      have hk : ¬ (p.1 = k) := by
        intro hk
        rw [List.any_eq_true] at h
        exact h ⟨p, hp, by simp [hk]⟩
      rw [if_neg hk]
      rfl
    rw [h3]
    simp

/-- The tokens of `value` that the code counts as matching votes. -/
def matchingVotes (value : String) (allowed : List String) : List String :=
  (goFields value).filter (fun vote => allowed.any (fun x => vote = goTrim x))

theorem allowed_fold_eq (allowed : List String) (key vote : String)
    (ls : List (String × Int)) :
    allowed.foldl
        (fun ls2 x => if vote = goTrim x then setLabel ls2 key (goAtoi vote) else ls2) ls =
      if allowed.any (fun x => vote = goTrim x) then setLabel ls key (goAtoi vote) else ls := by
  induction allowed generalizing ls with
  | nil => simp
  | cons x rest ih =>
    rw [List.foldl_cons, ih]
    by_cases hx : vote = goTrim x
    · rw [if_pos hx]
      have hany : (x :: rest).any (fun y => vote = goTrim y) = true := by
        simp [hx]
      rw [if_pos hany]
      by_cases hr : rest.any (fun y => vote = goTrim y)
      · rw [if_pos hr, setLabel_overwrite]
      · rw [if_neg hr]
    · rw [if_neg hx]
      have : ((x :: rest).any (fun y => vote = goTrim y)) =
          (rest.any (fun y => vote = goTrim y)) := by
        simp [hx]
      rw [this]

theorem tokens_fold_eq (tokens : List String) (allowed : List String) (key : String)
    (ls : List (String × Int)) :
    tokens.foldl
        (fun ls1 vote =>
          allowed.foldl
            (fun ls2 x => if vote = goTrim x then setLabel ls2 key (goAtoi vote) else ls2)
            ls1) ls =
      match (tokens.filter (fun vote => allowed.any (fun x => vote = goTrim x))).getLast? with
      | some v => setLabel ls key (goAtoi v)
      | none => ls := by
  induction tokens generalizing ls with
  | nil => simp
  | cons t ts ih =>
    rw [List.foldl_cons, allowed_fold_eq, ih]
    by_cases ht : allowed.any (fun x => t = goTrim x)
    · rw [if_pos ht]
      have hf : (t :: ts).filter (fun vote => allowed.any (fun x => vote = goTrim x)) =
          t :: ts.filter (fun vote => allowed.any (fun x => vote = goTrim x)) := by
        rw [List.filter_cons, if_pos (by simpa using ht)]
      rw [hf]
      cases hl : (ts.filter (fun vote => allowed.any (fun x => vote = goTrim x))).getLast? with
      | some v =>
        have hlast : ((t :: ts.filter (fun vote => allowed.any (fun x => vote = goTrim x))).getLast? :
            Option String) = some v := by
          cases hfl : ts.filter (fun vote => allowed.any (fun x => vote = goTrim x)) with
          | nil => rw [hfl] at hl; simp at hl
          | cons y ys =>
            rw [hfl] at hl
            rw [List.getLast?_cons_cons]
            exact hl
        rw [hlast]
        show setLabel (setLabel ls key (goAtoi t)) key (goAtoi v) = setLabel ls key (goAtoi v)
        exact setLabel_overwrite ls key (goAtoi t) (goAtoi v)
      | none =>
        have hnil : ts.filter (fun vote => allowed.any (fun x => vote = goTrim x)) = [] :=
          List.getLast?_eq_none_iff.mp hl
        rw [hnil]
        show setLabel ls key (goAtoi t) =
          match ([t] : List String).getLast? with
          | some v => setLabel ls key (goAtoi v)
          | none => ls
        rfl
    · rw [if_neg ht]
      have hf : (t :: ts).filter (fun vote => allowed.any (fun x => vote = goTrim x)) =
          ts.filter (fun vote => allowed.any (fun x => vote = goTrim x)) := by
        rw [List.filter_cons, if_neg (by simpa using ht)]
      rw [hf]

/-- C4 (amended): a summary line whose key names an existing label
filters the value's space-separated tokens against the label's
permitted-vote strings by exact comparison after trimming the permitted
string; non-matching tokens are dropped without any error, and the
*last* matching token (not the first) is the vote applied; in particular
`Code-Review: +7 +1` with permitted votes {"-1","0","+1"} yields exactly
the single vote +1. -/
theorem label_votes_c4_amended :
    (∀ (ls : List (String × Int)) (key value : String) (allowed : List String),
      applyLabelVotes ls key value allowed =
        match (matchingVotes value allowed).getLast? with
        | some v => setLabel ls key (goAtoi v)
        | none => ls) ∧
    applyLabelVotes [] "Code-Review" "+7 +1" ["-1", "0", "+1"] = [("Code-Review", 1)] := by
  constructor
  · intro ls key value allowed
    unfold applyLabelVotes matchingVotes
    exact tokens_fold_eq (goFields value) allowed key ls
  · decide

/-- C4 counterexample: on the line `Code-Review: +1 0` with permitted
votes {"-1","0","+1"} both tokens match; the code applies the *last*
matching token (vote 0), while the claim's "first matching token" would
be `+1` (vote 1). -/
theorem label_votes_c4_counterexample :
    applyLabelVotes [] "Code-Review" "+1 0" ["-1", "0", "+1"] = [("Code-Review", 0)] ∧
    (goFields "+1 0").find?
        (fun vote => (["-1", "0", "+1"] : List String).any (fun x => vote = goTrim x)) =
      some "+1" ∧
    goAtoi "+1" = 1 ∧ (0 : Int) ≠ 1 := by
  decide

/-! Facts about writeCL's abort behaviour (claim C2). -/

theorem suggestWithRetry_isSuggest (remote : Remote) (k : Nat) (f q : String) :
    ∀ a ∈ (suggestWithRetry remote k f q).2.1, isSuggest a = true := by
  unfold suggestWithRetry
  cases remote.suggest k with
  | some acct => simp [isSuggest]
  | none =>
    by_cases h : 3 ≤ f.length
    · simp [h, isSuggest]
    · simp [h, isSuggest]

theorem handleToken_extra (cl : CLSummary) (remote : Remote) (st : RevState) (f : String) :
    ∃ extra, (handleToken cl remote st f).actions = st.actions ++ extra ∧
      ∀ a ∈ extra, isSuggest a = true ∨ isAddReviewer a = true := by
  unfold handleToken
  by_cases h0 : haveLookup cl.reviewers f ≠ ""
  · rw [if_pos h0]
    exact ⟨[], by simp, by simp⟩
  · rw [if_neg h0]
    have hcalls := suggestWithRetry_isSuggest remote st.k f (mkQuery f)
    cases hr : (suggestWithRetry remote st.k f (mkQuery f)).1 with
    | none =>
      refine ⟨(suggestWithRetry remote st.k f (mkQuery f)).2.1, ?_, ?_⟩
      · simp [hr]
      · intro a ha
        exact Or.inl (hcalls a ha)
    | some acct =>
      by_cases hlen : acct.length = 0
      · refine ⟨(suggestWithRetry remote st.k f (mkQuery f)).2.1, ?_, ?_⟩
        · simp [hr, hlen]
        · intro a ha
          exact Or.inl (hcalls a ha)
      · by_cases hamb : 1 < (chooseBest acct).1 ∨ ((chooseBest acct).1 = 0 ∧ 1 < acct.length)
        · refine ⟨(suggestWithRetry remote st.k f (mkQuery f)).2.1, ?_, ?_⟩
          · simp [hr, hlen, hamb]
          · intro a ha
            exact Or.inl (hcalls a ha)
        · refine ⟨(suggestWithRetry remote st.k f (mkQuery f)).2.1 ++
            [Action.addReviewer (chooseBest acct).2], ?_, ?_⟩
          · by_cases hadd : remote.addFails (chooseBest acct).2
            · simp [hr, hlen, hamb, hadd, List.append_assoc]
            · simp [hr, hlen, hamb, hadd, List.append_assoc]
          · intro a ha
            rcases List.mem_append.mp ha with ha | ha
            · exact Or.inl (hcalls a ha)
            · simp only [List.mem_singleton] at ha
              subst ha
              exact Or.inr rfl

theorem not_setReview_of_call (d : Action)
    (hd : isSuggest d = true ∨ isAddReviewer d = true) : isSetReview d = false := by
  cases d <;> simp [isSuggest, isAddReviewer, isSetReview] at hd ⊢

theorem handleReviewers_no_setReview (cl : CLSummary) (remote : Remote) (k0 : Nat)
    (value : String) :
    ∀ a ∈ (handleReviewers cl remote k0 value).actions, isSetReview a = false := by
  unfold handleReviewers
  intro a ha
  simp only [List.mem_append] at ha
  rcases ha with ha | ha
  · -- action produced by the token fold
    have main : ∀ (fs : List String) (st : RevState),
        (∀ b ∈ st.actions, isSetReview b = false) →
        ∀ b ∈ (fs.foldl (handleToken cl remote) st).actions, isSetReview b = false := by
      intro fs
      induction fs with
      | nil => intro st hst b hb; exact hst b hb
      | cons f fs ih =>
        intro st hst b hb
        refine ih (handleToken cl remote st f) ?_ b hb
        obtain ⟨extra, hex, hext⟩ := handleToken_extra cl remote st f
        rw [hex]
        intro c hc
        rcases List.mem_append.mp hc with hc | hc
        · exact hst c hc
        · exact not_setReview_of_call c (hext c hc)
    exact main (goFields value) _ (by simp) a ha
  · obtain ⟨r, -, rfl⟩ := List.mem_map.mp ha
    rfl

theorem writeCLLoop_no_setReview (cl : CLSummary) (remote : Remote) :
    ∀ (lines : List String) (st : WriteCLState),
      (∀ a ∈ st.actions, isSetReview a = false) →
      ∀ a ∈ (writeCLLoop cl remote lines st).actions, isSetReview a = false := by
  intro lines
  induction lines with
  | nil => intro st hst a ha; exact hst a ha
  | cons origLine rest ih =>
    intro st hst a ha
    simp only [writeCLLoop] at ha
    split at ha
    · refine ih _ ?_ a ha
      intro b hb
      exact hst b hb
    · split at ha
      · exact hst a ha
      · split at ha
        · refine ih _ ?_ a ha
          intro b hb
          exact hst b hb
        · split at ha
          · refine ih _ ?_ a ha
            intro b hb
            rcases List.mem_append.mp hb with hb | hb
            · exact hst b hb
            · exact handleReviewers_no_setReview cl remote _ _ b hb
          · split at ha
            · refine ih _ ?_ a ha
              intro b hb
              exact hst b hb
            · refine ih _ ?_ a ha
              intro b hb
              exact hst b hb

/-- C2 (amended): an unrecognized `key: value` summary line sets the
parse-error flag, and a publish run that ends with the parse-error flag
set never attempts the final `SetReview` call, i.e. no label set and no
message publish; reviewer add and remove mutations triggered by a
`Reviewers:` line are still attempted, wherever the unrecognized line
appears relative to the Reviewers line. -/
theorem unknown_line_abort_c2_amended (cl : CLSummary) (remote : Remote) (doc : String)
    (h : (writeCL cl remote doc).parseError = true) :
    ∀ ls m, Action.setReview ls m ∉ (writeCL cl remote doc).actions := by
  intro ls m hmem
  have hloop := writeCLLoop_no_setReview cl remote (splitAfterNL doc)
    ⟨0, [], [], [], false, 0⟩ (by simp)
  unfold writeCL at h hmem
  by_cases hpe : (writeCLLoop cl remote (splitAfterNL doc)
      ⟨0, [], [], [], false, 0⟩).parseError = true
  · rw [if_pos hpe] at hmem
    have := hloop _ hmem
    simp [isSetReview] at this
  · rw [if_neg hpe] at h
    simp only at h
    exact hpe h

/-- Witness for the amended C2 theorem at a concrete document whose
first line is unrecognized. -/
theorem unknown_line_abort_c2_amended_witness :
    Action.setReview [] "" ∉
      (writeCL ⟨[], "owner@x.org", ["Code-Review"], [("Code-Review", ["-1", " 0", "+1"])]⟩
        ⟨fun k => if k = 0 then some [some "zz@x.org"] else some [], fun _ => false⟩
        "Bogus: x\nReviewers: zz\n").actions :=
  unknown_line_abort_c2_amended _ _ _ (by decide) [] ""

/-- C2 counterexample: with the unrecognized line `Bogus: x` placed
*before* the `Reviewers:` line, the parse error is flagged, yet the
reviewer mutation (an AddReviewer call for the resolved token `zz`) is
still attempted — refuting "no remote mutation of any kind is
attempted". -/
theorem unknown_line_abort_c2_counterexample :
    (writeCL ⟨[], "owner@x.org", ["Code-Review"], [("Code-Review", ["-1", " 0", "+1"])]⟩
        ⟨fun k => if k = 0 then some [some "zz@x.org"] else some [], fun _ => false⟩
        "Bogus: x\nReviewers: zz\n").parseError = true ∧
    Action.addReviewer "zz@x.org" ∈
      (writeCL ⟨[], "owner@x.org", ["Code-Review"], [("Code-Review", ["-1", " 0", "+1"])]⟩
        ⟨fun k => if k = 0 then some [some "zz@x.org"] else some [], fun _ => false⟩
        "Bogus: x\nReviewers: zz\n").actions := by
  decide

/-! Facts about the candidate-selection heuristic (claims C5, C7, C8). -/

/-- Whether a suggestion entry is a preferred-domain candidate. -/
def preferredSug : Suggestion → Bool
  | none => false
  | some email => preferred email

/-- The number of preferred-domain candidates among the suggestions. -/
def prefCount (acct : List Suggestion) : Nat := acct.countP preferredSug

/-- One step of the `chooseBest` fold, as a named function. -/
def chooseBestStep (p : Nat × String) (a : Suggestion) : Nat × String :=
  match a with
  | none => p
  | some email =>
    let best := if p.2 = "" then email else p.2
    if preferred email then (p.1 + 1, email) else (p.1, best)

theorem chooseBest_eq (acct : List Suggestion) :
    chooseBest acct = acct.foldl chooseBestStep (0, "") := by
  unfold chooseBest
  exact List.foldl_ext _ chooseBestStep _ (fun p a _ => rfl)

theorem prefCount_cons (a : Suggestion) (rest : List Suggestion) :
    prefCount (a :: rest) = prefCount rest + (if preferredSug a = true then 1 else 0) := by
  unfold prefCount
  rw [List.countP_cons]

theorem chooseBestStep_fst (p : Nat × String) (a : Suggestion) :
    (chooseBestStep p a).1 = p.1 + (if preferredSug a = true then 1 else 0) := by
  cases a with
  | none => simp [chooseBestStep, preferredSug]
  | some email =>
    by_cases hp : preferred email
    · simp [chooseBestStep, preferredSug, hp]
    · simp [chooseBestStep, preferredSug, hp]

theorem chooseBest_fold_count (acct : List Suggestion) :
    ∀ p : Nat × String, (acct.foldl chooseBestStep p).1 = p.1 + prefCount acct := by
  induction acct with
  | nil => intro p; simp [prefCount]
  | cons a rest ih =>
    intro p
    rw [List.foldl_cons, ih, chooseBestStep_fst, prefCount_cons]
    by_cases h : preferredSug a = true
    · simp [h]
      omega
    · simp [h]

theorem chooseBest_count (acct : List Suggestion) :
    (chooseBest acct).1 = prefCount acct := by
  rw [chooseBest_eq, chooseBest_fold_count]
  simp

theorem preferred_ne_empty (e : String) (h : preferred e = true) : e ≠ "" := by
  intro he
  subst he
  exact absurd h (by decide)

theorem chooseBest_fold_stable (acct : List Suggestion) :
    ∀ p : Nat × String, p.2 ≠ "" → prefCount acct = 0 →
      (acct.foldl chooseBestStep p).2 = p.2 := by
  induction acct with
  | nil => intro p _ _; rfl
  | cons a rest ih =>
    intro p hp h0
    rw [prefCount_cons] at h0
    have ha : preferredSug a = false := by
      by_cases hb : preferredSug a = true
      · rw [hb] at h0; simp at h0
      · exact Bool.eq_false_iff.mpr hb
    have hrest : prefCount rest = 0 := by
      rw [ha] at h0
      simpa using h0
    rw [List.foldl_cons]
    cases a with
    | none => exact ih _ hp hrest
    | some email =>
      have hpe : preferred email = false := by simpa [preferredSug] using ha
      have hstep : chooseBestStep p (some email) = (p.1, p.2) := by
        simp [chooseBestStep, hpe, if_neg hp]
      rw [hstep]
      exact ih _ hp hrest

theorem chooseBest_fold_unique (acct : List Suggestion) :
    ∀ p : Nat × String, prefCount acct = 1 →
      ∀ e, some e ∈ acct → preferred e = true →
        (acct.foldl chooseBestStep p).2 = e := by
  induction acct with
  | nil => intro p _ e he _; cases he
  | cons a rest ih =>
    intro p h1 e he hp
    rw [prefCount_cons] at h1
    rw [List.foldl_cons]
    cases a with
    | none =>
      have hrest : prefCount rest = 1 := by simpa [preferredSug] using h1
      have he' : some e ∈ rest := by
        rcases List.mem_cons.mp he with h | h
        · cases h
        · exact h
      exact ih _ hrest e he' hp
    | some e' =>
      by_cases hp' : preferred e'
      · have hrest : prefCount rest = 0 := by
          have hps : preferredSug (some e') = true := by simp [preferredSug, hp']
          rw [hps] at h1
          simpa using h1
        have hee : e = e' := by
          rcases List.mem_cons.mp he with h | h
          · exact (Option.some.injEq _ _ ▸ h)
          · exfalso
            have := (List.countP_eq_zero.mp hrest) (some e) h
            simp [preferredSug, hp] at this
        have hstep : (chooseBestStep p (some e')).2 = e' := by
          simp [chooseBestStep, hp']
        have hne : (chooseBestStep p (some e')).2 ≠ "" := by
          rw [hstep]; exact preferred_ne_empty e' hp'
        rw [chooseBest_fold_stable rest _ hne hrest, hstep, hee]
      · have hrest : prefCount rest = 1 := by
          simpa [preferredSug, hp'] using h1
        have he' : some e ∈ rest := by
          rcases List.mem_cons.mp he with h | h
          · exfalso
            have : e = e' := Option.some.injEq _ _ ▸ h
            rw [this] at hp
            exact hp' hp
          · exact h
        exact ih _ hrest e he' hp

theorem chooseBest_unique (acct : List Suggestion) (h1 : prefCount acct = 1)
    (e : String) (he : some e ∈ acct) (hp : preferred e = true) :
    (chooseBest acct).2 = e := by
  rw [chooseBest_eq]
  exact chooseBest_fold_unique acct _ h1 e he hp

theorem chooseBest_single (e : String) : (chooseBest [some e]).2 = e := by
  rw [chooseBest_eq]
  show (chooseBestStep (0, "") (some e)).2 = e
  by_cases hp : preferred e
  · simp [chooseBestStep, hp]
  · simp [chooseBestStep, hp]


/-- C5: for a reviewer token matching no known reviewer, with the
suggestion lookup succeeding at the current call index: exactly one
preferred-domain candidate means that candidate is the one added; two
or more preferred-domain candidates record the ambiguous-reviewer
diagnostic listing every candidate email and issue no add call; no
preferred-domain candidate with exactly one candidate overall means
that one is added; and an empty candidate list records the
unknown-reviewer diagnostic with no add call. -/
theorem reviewer_selection_c5 (cl : CLSummary) (remote : Remote) (st : RevState)
    (f : String) (acct : List Suggestion)
    (hmiss : haveLookup cl.reviewers f = "")
    (hsug : remote.suggest st.k = some acct) :
    (∀ e, prefCount acct = 1 → some e ∈ acct → preferred e = true →
      (handleToken cl remote st f).actions =
        st.actions ++ [Action.suggestReviewers (mkQuery f) 10, Action.addReviewer e]) ∧
    (2 ≤ prefCount acct →
      (handleToken cl remote st f).actions =
        st.actions ++ [Action.suggestReviewers (mkQuery f) 10] ∧
      (handleToken cl remote st f).errs = st.errs ++ [ambiguousMsg f acct]) ∧
    (∀ e, prefCount acct = 0 → acct = [some e] →
      (handleToken cl remote st f).actions =
        st.actions ++ [Action.suggestReviewers (mkQuery f) 10, Action.addReviewer e]) ∧
    (acct = [] →
      (handleToken cl remote st f).actions =
        st.actions ++ [Action.suggestReviewers (mkQuery f) 10] ∧
      (handleToken cl remote st f).errs = st.errs ++ ["unknown reviewer: " ++ f]) := by
  have hne : ¬ haveLookup cl.reviewers f ≠ "" := by simp [hmiss]
  have hswr : suggestWithRetry remote st.k f (mkQuery f) =
      (some acct, [Action.suggestReviewers (mkQuery f) 10], st.k + 1) := by
    unfold suggestWithRetry
    rw [hsug]
  refine ⟨?_, ?_, ?_, ?_⟩
  · intro e h1 he hp
    have hlen : ¬ acct.length = 0 := by
      intro h0
      rw [List.length_eq_zero] at h0
      subst h0
      cases he
    have hn : (chooseBest acct).1 = 1 := by rw [chooseBest_count]; exact h1
    have hguard : ¬ (1 < (chooseBest acct).1 ∨
        ((chooseBest acct).1 = 0 ∧ 1 < acct.length)) := by
      rw [hn]; simp
    have hbest : (chooseBest acct).2 = e := chooseBest_unique acct h1 e he hp
    unfold handleToken
    rw [if_neg hne]
    dsimp only
    rw [hswr]
    by_cases haf : remote.addFails e = true
    · simp [hlen, hguard, haf, hbest, List.append_assoc]
    · simp [hlen, hguard, haf, hbest, List.append_assoc]
  · intro h2
    have hlen : ¬ acct.length = 0 := by
      intro h0
      rw [List.length_eq_zero] at h0
      subst h0
      simp [prefCount] at h2
    have hguard : 1 < (chooseBest acct).1 ∨
        ((chooseBest acct).1 = 0 ∧ 1 < acct.length) := by
      left
      rw [chooseBest_count]
      omega
    unfold handleToken
    rw [if_neg hne]
    dsimp only
    rw [hswr]
    exact ⟨by simp [hlen, hguard], by simp [hlen, hguard]⟩
  · intro e h0 hacct
    subst hacct
    have hlen : ¬ ([some e] : List Suggestion).length = 0 := by simp
    have hn : (chooseBest [some e]).1 = 0 := by rw [chooseBest_count]; exact h0
    have hguard : ¬ (1 < (chooseBest [some e]).1 ∨
        ((chooseBest [some e]).1 = 0 ∧ 1 < ([some e] : List Suggestion).length)) := by
      rw [hn]; simp
    have hbest : (chooseBest [some e]).2 = e := chooseBest_single e
    unfold handleToken
    rw [if_neg hne]
    dsimp only
    rw [hswr]
    by_cases haf : remote.addFails e = true
    · simp [hlen, hn, haf, hbest, List.append_assoc]
    · simp [hlen, hn, haf, hbest, List.append_assoc]
  · intro hacct
    subst hacct
    unfold handleToken
    rw [if_neg hne]
    dsimp only
    rw [hswr]
    exact ⟨by simp, by simp⟩

/-- Witness for the C5 theorem: a concrete lookup with one preferred
and one non-preferred candidate adds the preferred one. -/
theorem reviewer_selection_c5_witness :
    (handleToken ⟨[], "o@x.org", [], []⟩
        ⟨fun _ => some [some "a@b.com", some "p@golang.org"], fun _ => false⟩
        ⟨0, [], [], []⟩ "p").actions =
      [Action.suggestReviewers (mkQuery "p") 10, Action.addReviewer "p@golang.org"] :=
  (reviewer_selection_c5 ⟨[], "o@x.org", [], []⟩
      ⟨fun _ => some [some "a@b.com", some "p@golang.org"], fun _ => false⟩
      ⟨0, [], [], []⟩ "p" [some "a@b.com", some "p@golang.org"]
      (by decide) rfl).1 "p@golang.org" (by decide) (by decide) (by decide)


/-! Facts about query normalisation and lookup retry (claim C8). -/

/-- The claim reads the domain hint as appended "exactly when two
characters remain before the `@`"; this definition follows those words
(the code instead tests the whole query for length 2). -/
def mkQueryClaim (f : String) : String :=
  let q := if f.data.contains '@' then f else f ++ "@"
  if (q.data.takeWhile (fun c => c ≠ '@')).length = 2 then q ++ "go" else q

/-- C8 (amended): for a reviewer token matching no known reviewer, the
suggestion calls attempted are exactly one lookup with the normalised
query (the token with `@` appended when it has none, and the `"go"`
domain hint appended exactly when the resulting query is two characters
long) capped at 10 results, doubled — retried exactly once — precisely
when the first call fails and the token has at least 3 characters. -/
theorem query_retry_c8_amended (cl : CLSummary) (remote : Remote) (st : RevState)
    (f : String) (hmiss : haveLookup cl.reviewers f = "") :
    (handleToken cl remote st f).actions.filter isSuggest =
      st.actions.filter isSuggest ++
        (if remote.suggest st.k = none ∧ 3 ≤ f.length then
          [Action.suggestReviewers (mkQuery f) 10, Action.suggestReviewers (mkQuery f) 10]
        else
          [Action.suggestReviewers (mkQuery f) 10]) := by
  have hne : ¬ haveLookup cl.reviewers f ≠ "" := by simp [hmiss]
  unfold handleToken
  rw [if_neg hne]
  dsimp only
  cases hsug : remote.suggest st.k with
  | some acct =>
    have hswr : suggestWithRetry remote st.k f (mkQuery f) =
        (some acct, [Action.suggestReviewers (mkQuery f) 10], st.k + 1) := by
      unfold suggestWithRetry
      rw [hsug]
    rw [hswr]
    by_cases hlen : acct.length = 0
    · simp [hlen, isSuggest, List.filter_append]
    · by_cases hamb : 1 < (chooseBest acct).1 ∨
          ((chooseBest acct).1 = 0 ∧ 1 < acct.length)
      · simp [hlen, hamb, isSuggest, List.filter_append]
      · by_cases haf : remote.addFails (chooseBest acct).2 = true
        · simp [hlen, hamb, haf, isSuggest, List.filter_append]
        · simp [hlen, hamb, haf, isSuggest, List.filter_append]
  | none =>
    by_cases h3 : 3 ≤ f.length
    · have hswr : suggestWithRetry remote st.k f (mkQuery f) =
          (remote.suggest (st.k + 1),
            [Action.suggestReviewers (mkQuery f) 10, Action.suggestReviewers (mkQuery f) 10],
            st.k + 2) := by
        unfold suggestWithRetry
        rw [hsug, if_pos h3]
      rw [hswr]
      cases hretry : remote.suggest (st.k + 1) with
      | none => simp [h3, isSuggest, List.filter_append]
      | some acct =>
        by_cases hlen : acct.length = 0
        · simp [h3, hlen, isSuggest, List.filter_append]
        · by_cases hamb : 1 < (chooseBest acct).1 ∨
              ((chooseBest acct).1 = 0 ∧ 1 < acct.length)
          · simp [h3, hlen, hamb, isSuggest, List.filter_append]
          · by_cases haf : remote.addFails (chooseBest acct).2 = true
            · simp [h3, hlen, hamb, haf, isSuggest, List.filter_append]
            · simp [h3, hlen, hamb, haf, isSuggest, List.filter_append]
    · have hswr : suggestWithRetry remote st.k f (mkQuery f) =
          (none, [Action.suggestReviewers (mkQuery f) 10], st.k + 1) := by
        unfold suggestWithRetry
        rw [hsug, if_neg h3]
      rw [hswr]
      simp [h3, isSuggest, List.filter_append]

/-- Witness for the amended C8 theorem: a failing lookup with a
3-character token is retried, so exactly two suggestion calls go out. -/
theorem query_retry_c8_amended_witness :
    (handleToken ⟨[], "o@x.org", [], []⟩ ⟨fun _ => none, fun _ => false⟩
        ⟨0, [], [], []⟩ "abc").actions.filter isSuggest =
      [Action.suggestReviewers (mkQuery "abc") 10,
        Action.suggestReviewers (mkQuery "abc") 10] := by
  have h := query_retry_c8_amended ⟨[], "o@x.org", [], []⟩
    ⟨fun _ => none, fun _ => false⟩ ⟨0, [], [], []⟩ "abc" (by decide)
  rw [h]
  rfl

/-- C8 counterexample: on the one-character token `a` the code's query
is `a@go` — the hint is appended because the whole query `a@` has
length 2 — while a query built by the claim's words (hint exactly when
two characters remain before the `@`) is `a@`; the call actually
attempted carries `a@go`. -/
theorem query_retry_c8_counterexample :
    mkQuery "a" = "a@go" ∧ mkQueryClaim "a" = "a@" ∧
    mkQuery "a" ≠ mkQueryClaim "a" ∧
    Action.suggestReviewers "a@go" 10 ∈
      (handleToken ⟨[], "o@x.org", [], []⟩ ⟨fun _ => some [], fun _ => false⟩
        ⟨0, [], [], []⟩ "a").actions := by
  decide


/-! Facts about reviewer reconciliation (claim C7). -/

/-- Spec-side view of one token's resolution: the candidate email the
token resolves to, or `none` for a token matching a known reviewer
(kept without an add call) and for failed, empty, or ambiguous
lookups.  Compared below with the adds `handleToken` attempts. -/
def resolveOne (cl : CLSummary) (remote : Remote) (k : Nat) (f : String) :
    Option String :=
  if haveLookup cl.reviewers f ≠ "" then none
  else
    match (suggestWithRetry remote k f (mkQuery f)).1 with
    | none => none
    | some acct =>
      if acct.length = 0 then none
      else
        if 1 < (chooseBest acct).1 ∨ ((chooseBest acct).1 = 0 ∧ 1 < acct.length) then
          none
        else some (chooseBest acct).2

/-- The suggestion-call index after processing one token. -/
def nextCallIdx (cl : CLSummary) (remote : Remote) (k : Nat) (f : String) : Nat :=
  if haveLookup cl.reviewers f ≠ "" then k
  else (suggestWithRetry remote k f (mkQuery f)).2.2

/-- Spec-side view of a token list: the emails the tokens resolve to,
in order, threading the suggestion-call index. -/
def resolvedTokens (cl : CLSummary) (remote : Remote) :
    Nat → List String → List String
  | _, [] => []
  | k, f :: fs =>
    match resolveOne cl remote k f with
    | some e => e :: resolvedTokens cl remote (nextCallIdx cl remote k f) fs
    | none => resolvedTokens cl remote (nextCallIdx cl remote k f) fs

theorem resolvedTokens_nil (cl : CLSummary) (remote : Remote) (k : Nat) :
    resolvedTokens cl remote k [] = [] := rfl

theorem resolvedTokens_cons (cl : CLSummary) (remote : Remote) (k : Nat)
    (f : String) (fs : List String) :
    resolvedTokens cl remote k (f :: fs) =
      match resolveOne cl remote k f with
      | some e => e :: resolvedTokens cl remote (nextCallIdx cl remote k f) fs
      | none => resolvedTokens cl remote (nextCallIdx cl remote k f) fs := rfl

theorem handleToken_k (cl : CLSummary) (remote : Remote) (st : RevState) (f : String) :
    (handleToken cl remote st f).k = nextCallIdx cl remote st.k f := by
  unfold handleToken nextCallIdx
  by_cases h0 : haveLookup cl.reviewers f ≠ ""
  · rw [if_pos h0, if_pos h0]
  · rw [if_neg h0, if_neg h0]
    dsimp only
    cases hr : (suggestWithRetry remote st.k f (mkQuery f)).1 with
    | none => simp [hr]
    | some acct =>
      by_cases hlen : acct.length = 0
      · simp [hr, hlen]
      · by_cases hamb : 1 < (chooseBest acct).1 ∨
            ((chooseBest acct).1 = 0 ∧ 1 < acct.length)
        · simp [hr, hlen, hamb]
        · by_cases haf : remote.addFails (chooseBest acct).2 = true
          · simp [hr, hlen, hamb, haf]
          · simp [hr, hlen, hamb, haf]

theorem handleToken_adds (cl : CLSummary) (remote : Remote) (st : RevState) (f : String) :
    (handleToken cl remote st f).actions.filter isAddReviewer =
      st.actions.filter isAddReviewer ++
        (match resolveOne cl remote st.k f with
         | some e => [Action.addReviewer e]
         | none => []) := by
  have hcalls := suggestWithRetry_isSuggest remote st.k f (mkQuery f)
  have hfil : (suggestWithRetry remote st.k f (mkQuery f)).2.1.filter isAddReviewer = [] := by
    rw [List.filter_eq_nil_iff]
    intro a ha
    have := hcalls a ha
    cases a <;> simp [isSuggest, isAddReviewer] at this ⊢
  unfold handleToken resolveOne
  by_cases h0 : haveLookup cl.reviewers f ≠ ""
  · rw [if_pos h0, if_pos h0]
    simp
  · rw [if_neg h0, if_neg h0]
    dsimp only
    cases hr : (suggestWithRetry remote st.k f (mkQuery f)).1 with
    | none => simp [hr, List.filter_append, hfil]
    | some acct =>
      by_cases hlen : acct.length = 0
      · simp [hr, hlen, List.filter_append, hfil]
      · by_cases hamb : 1 < (chooseBest acct).1 ∨
            ((chooseBest acct).1 = 0 ∧ 1 < acct.length)
        · simp [hr, hlen, hamb, List.filter_append, hfil]
        · by_cases haf : remote.addFails (chooseBest acct).2 = true
          · simp [hr, hlen, hamb, haf, List.filter_append, hfil, isAddReviewer]
          · simp [hr, hlen, hamb, haf, List.filter_append, hfil, isAddReviewer]

theorem handleToken_dels (cl : CLSummary) (remote : Remote) (st : RevState) (f : String) :
    (handleToken cl remote st f).actions.filter isDeleteReviewer =
      st.actions.filter isDeleteReviewer := by
  obtain ⟨extra, hex, hext⟩ := handleToken_extra cl remote st f
  rw [hex, List.filter_append]
  have hnil : extra.filter isDeleteReviewer = [] := by
    rw [List.filter_eq_nil_iff]
    intro a ha
    rcases hext a ha with h | h <;> cases a <;>
      simp [isSuggest, isAddReviewer, isDeleteReviewer] at h ⊢
  rw [hnil, List.append_nil]

theorem handleToken_kept_mono (cl : CLSummary) (remote : Remote) (st : RevState)
    (f : String) : ∀ x ∈ st.kept, x ∈ (handleToken cl remote st f).kept := by
  intro x hx
  unfold handleToken
  by_cases h0 : haveLookup cl.reviewers f ≠ ""
  · rw [if_pos h0]
    exact List.mem_cons_of_mem _ hx
  · rw [if_neg h0]
    dsimp only
    cases hr : (suggestWithRetry remote st.k f (mkQuery f)).1 with
    | none => simpa [hr] using hx
    | some acct =>
      by_cases hlen : acct.length = 0
      · simpa [hr, hlen] using hx
      · by_cases hamb : 1 < (chooseBest acct).1 ∨
            ((chooseBest acct).1 = 0 ∧ 1 < acct.length)
        · simpa [hr, hlen, hamb] using hx
        · by_cases haf : remote.addFails (chooseBest acct).2 = true
          · simpa [hr, hlen, hamb, haf] using hx
          · simp [hr, hlen, hamb, haf]
            exact Or.inr hx

theorem revFold_adds (cl : CLSummary) (remote : Remote) :
    ∀ (fs : List String) (st : RevState),
      (fs.foldl (handleToken cl remote) st).actions.filter isAddReviewer =
        st.actions.filter isAddReviewer ++
          (resolvedTokens cl remote st.k fs).map Action.addReviewer := by
  intro fs
  induction fs with
  | nil => intro st; simp [resolvedTokens]
  | cons f fs ih =>
    intro st
    rw [List.foldl_cons, ih, handleToken_adds, handleToken_k, resolvedTokens_cons]
    cases hro : resolveOne cl remote st.k f with
    | some e => simp [List.append_assoc]
    | none => simp

theorem revFold_dels (cl : CLSummary) (remote : Remote) :
    ∀ (fs : List String) (st : RevState),
      (fs.foldl (handleToken cl remote) st).actions.filter isDeleteReviewer =
        st.actions.filter isDeleteReviewer := by
  intro fs
  induction fs with
  | nil => intro st; rfl
  | cons f fs ih =>
    intro st
    rw [List.foldl_cons, ih, handleToken_dels]

theorem revFold_kept_mono (cl : CLSummary) (remote : Remote) :
    ∀ (fs : List String) (st : RevState) (x : String),
      x ∈ st.kept → x ∈ (fs.foldl (handleToken cl remote) st).kept := by
  intro fs
  induction fs with
  | nil => intro st x hx; exact hx
  | cons f fs ih =>
    intro st x hx
    rw [List.foldl_cons]
    exact ih _ x (handleToken_kept_mono cl remote st f x hx)

theorem handleReviewers_kept_owner (cl : CLSummary) (remote : Remote) (k0 : Nat)
    (value : String) : cl.ownerEmail ∈ (handleReviewers cl remote k0 value).kept := by
  unfold handleReviewers
  exact revFold_kept_mono cl remote (goFields value) ⟨k0, [cl.ownerEmail], [], []⟩
    cl.ownerEmail (by simp)

theorem handleReviewers_dels (cl : CLSummary) (remote : Remote) (k0 : Nat)
    (value : String) :
    (handleReviewers cl remote k0 value).actions.filter isDeleteReviewer =
      (cl.reviewers.filter
        (fun r => ¬ (handleReviewers cl remote k0 value).kept.contains r.email)).map
        (fun r => Action.deleteReviewer r.email) := by
  unfold handleReviewers
  dsimp only
  rw [List.filter_append, revFold_dels]
  simp [isDeleteReviewer, List.filter_map, Function.comp]

theorem handleReviewers_adds (cl : CLSummary) (remote : Remote) (k0 : Nat)
    (value : String) :
    (handleReviewers cl remote k0 value).actions.filter isAddReviewer =
      (resolvedTokens cl remote k0 (goFields value)).map Action.addReviewer := by
  unfold handleReviewers
  dsimp only
  rw [List.filter_append, revFold_adds]
  have hnil : (List.map (fun r => Action.deleteReviewer r.email)
      (cl.reviewers.filter (fun r =>
        ¬ ((goFields value).foldl (handleToken cl remote)
            ⟨k0, [cl.ownerEmail], [], []⟩).kept.contains r.email))).filter
      isAddReviewer = [] := by
    rw [List.filter_eq_nil_iff]
    intro a ha
    obtain ⟨r, -, rfl⟩ := List.mem_map.mp ha
    simp [isAddReviewer]
  rw [hnil, List.append_nil]
  simp

theorem handleReviewers_no_owner_delete (cl : CLSummary) (remote : Remote) (k0 : Nat)
    (value : String) :
    Action.deleteReviewer cl.ownerEmail ∉ (handleReviewers cl remote k0 value).actions := by
  intro hmem
  have hfil : Action.deleteReviewer cl.ownerEmail ∈
      (handleReviewers cl remote k0 value).actions.filter isDeleteReviewer :=
    List.mem_filter.mpr ⟨hmem, rfl⟩
  rw [handleReviewers_dels] at hfil
  obtain ⟨r, hr, hre⟩ := List.mem_map.mp hfil
  have hemail : r.email = cl.ownerEmail := by
    have := congrArg (fun a => match a with | Action.deleteReviewer e => e | _ => "") hre
    simpa using this
  have hrk := (List.mem_filter.mp hr).2
  rw [hemail] at hrk
  have howner := handleReviewers_kept_owner cl remote k0 value
  simp at hrk
  exact hrk howner

theorem writeCLLoop_no_owner_delete (cl : CLSummary) (remote : Remote) :
    ∀ (lines : List String) (st : WriteCLState),
      Action.deleteReviewer cl.ownerEmail ∉ st.actions →
      Action.deleteReviewer cl.ownerEmail ∉ (writeCLLoop cl remote lines st).actions := by
  intro lines
  induction lines with
  | nil => intro st hst; exact hst
  | cons origLine rest ih =>
    intro st hst ha
    simp only [writeCLLoop] at ha
    split at ha
    · refine ih _ ?_ ha
      intro hb
      exact hst hb
    · split at ha
      · exact hst ha
      · split at ha
        · refine ih _ ?_ ha
          intro hb
          exact hst hb
        · split at ha
          · refine ih _ ?_ ha
            intro hb
            rcases List.mem_append.mp hb with hb | hb
            · exact hst hb
            · exact handleReviewers_no_owner_delete cl remote _ _ hb
          · split at ha
            · refine ih _ ?_ ha
              intro hb
              exact hst hb
            · refine ih _ ?_ ha
              intro hb
              exact hst hb

/-- C7: the `kept` set of the Reviewers reconciliation always contains
the change owner, so a whole `writeCL` run never attempts a
DeleteReviewer for the owner; the delete calls attempted are exactly
those for previously known reviewers whose email is outside `kept`,
and the add calls attempted are exactly those for the emails the
edited tokens resolve to (tokens matching a known reviewer are kept
without an add). -/
theorem owner_never_removed_c7 (cl : CLSummary) (remote : Remote) :
    (∀ doc, Action.deleteReviewer cl.ownerEmail ∉ (writeCL cl remote doc).actions) ∧
    (∀ k0 value,
      cl.ownerEmail ∈ (handleReviewers cl remote k0 value).kept ∧
      (handleReviewers cl remote k0 value).actions.filter isDeleteReviewer =
        (cl.reviewers.filter
          (fun r => ¬ (handleReviewers cl remote k0 value).kept.contains r.email)).map
          (fun r => Action.deleteReviewer r.email) ∧
      (handleReviewers cl remote k0 value).actions.filter isAddReviewer =
        (resolvedTokens cl remote k0 (goFields value)).map Action.addReviewer) := by
  constructor
  · intro doc hmem
    unfold writeCL at hmem
    by_cases hpe : (writeCLLoop cl remote (splitAfterNL doc)
        ⟨0, [], [], [], false, 0⟩).parseError = true
    · rw [if_pos hpe] at hmem
      exact writeCLLoop_no_owner_delete cl remote (splitAfterNL doc)
        ⟨0, [], [], [], false, 0⟩ (by simp) hmem
    · rw [if_neg hpe] at hmem
      simp only at hmem
      rcases List.mem_append.mp hmem with hmem | hmem
      · exact writeCLLoop_no_owner_delete cl remote (splitAfterNL doc)
          ⟨0, [], [], [], false, 0⟩ (by simp) hmem
      · simp at hmem
  · intro k0 value
    exact ⟨handleReviewers_kept_owner cl remote k0 value,
      handleReviewers_dels cl remote k0 value,
      handleReviewers_adds cl remote k0 value⟩


/-! ### The patch-set document: renderer (show.go showPatchSet) and
parser/planner (part_000 writePatchSet), for claims C6 and C1. -/

/-- `DiffPrefix` (show.go line 229). -/
def diffMarker : String := "\u22ee"

/-- `IsDraft` (internal/gerrit): a comment with no author. -/
def isDraftB (c : CommentInfo) : Bool := c.authorEmail.isNone

/-- Embeds `shortTime` composed with the abstract timestamp: the source
formats the time with Go's `time.Stamp` layout; the timestamps here are
abstract naturals, rendered by their value.  No claim depends on the
layout's text. -/
def shortTime (t : Nat) : String := toString t

/-- Embeds `commentHeader` (show.go lines 534-540). -/
def commentHeader (c : CommentInfo) : String :=
  let who := match c.authorEmail with
    | none => "draft xxx"
    | some e => shortEmail e
  who ++ " (" ++ shortTime c.updated ++ "):"

/-- The `msgsByDisplay` order (show.go lines 414-424): by line, drafts
after non-drafts on the same line, then by time. -/
def msgsLess (x y : CommentInfo) : Bool :=
  if x.line ≠ y.line then x.line < y.line
  else if isDraftB x ≠ isDraftB y then isDraftB y
  else x.updated < y.updated

def insertBy {α : Type} (le : α → α → Bool) (x : α) : List α → List α
  | [] => [x]
  | y :: ys => if le x y then x :: y :: ys else y :: insertBy le x ys

/-- Insertion sort standing in for Go's `sort.Sort`/`sort.Strings`
(which leave the order of `Less`-equal elements unspecified). -/
def sortBy {α : Type} (le : α → α → Bool) : List α → List α
  | [] => []
  | x :: xs => insertBy le x (sortBy le xs)

/-- The fields of the fetched `CL` that `writePatchSet` reads. -/
structure PatchCL where
  drafts : List CommentInfo
  comments : List (String × List CommentInfo)
  base : String
  baseRevPS : Nat
  patchRevPS : Nat
  revisions : List (String × Nat)
  deriving Repr, DecidableEq

/-- Embeds `patchSetRevID` (part_000 lines 312-319); the source ranges
over the revisions map, deterministic whenever patch-set numbers are
distinct. -/
def patchSetRevID (cl : PatchCL) (id : Nat) : String :=
  match cl.revisions.find? (fun p => p.2 = id) with
  | some p => p.1
  | none => ""

def stripLit (pat : List Char) (cs : List Char) : Option (List Char) :=
  if pat.isPrefixOf cs then some (cs.drop pat.length) else none

def takeDigits (cs : List Char) : List Char × List Char :=
  (cs.takeWhile Char.isDigit, cs.dropWhile Char.isDigit)

def digitsVal (ds : List Char) : Nat :=
  ds.foldl (fun n c => n * 10 + (c.toNat - Char.toNat (Char.ofNat 48))) 0

/-- Embeds `diffHunkRE` (part_000 line 171),
`^@@ -([0-9]+),([0-9]+) \+([0-9]+),([0-9]+) @@`, returning the first and
third captures as numbers.  The digit runs are maximal, so the regex
match is deterministic. -/
def diffHunkMatch (s : String) : Option (Nat × Nat) := do
  let cs1 ← stripLit "@@ -".data s.data
  let (d1, cs2) := takeDigits cs1
  if d1 = [] then none else
  let cs3 ← stripLit ",".data cs2
  let (d2, cs4) := takeDigits cs3
  if d2 = [] then none else
  let cs5 ← stripLit " +".data cs4
  let (d3, cs6) := takeDigits cs5
  if d3 = [] then none else
  let cs7 ← stripLit ",".data cs6
  let (d4, cs8) := takeDigits cs7
  if d4 = [] then none else
  let _ ← stripLit " @@".data cs8
  pure (digitsVal d1, digitsVal d3)

/-- Embeds `inlineCommentRE` (part_000 line 170),
`^[^ ]+ \([A-Z][a-z]{2} +[0-9]+ [0-9]+:[0-9]{2}:[0-9]{2}\):`, as the
remaining suffix after the anchored match.  Every quantified class
excludes the character that follows it, so the regex never needs to
backtrack and this greedy scan is equivalent. -/
def inlineRest (cs : List Char) : Option (List Char) := do
  let w := cs.takeWhile (fun c => ¬ c = ' ')
  if w = [] then none else
  let cs2 ← stripLit " (".data (cs.dropWhile (fun c => ¬ c = ' '))
  match cs2 with
  | c :: c1 :: c2 :: cs4 =>
    if ('A' ≤ c ∧ c ≤ 'Z') ∧ ('a' ≤ c1 ∧ c1 ≤ 'z') ∧ ('a' ≤ c2 ∧ c2 ≤ 'z') then
      let sp := cs4.takeWhile (fun x => x = ' ')
      if sp = [] then none else
      let cs5 := cs4.dropWhile (fun x => x = ' ')
      let (d1, cs6) := takeDigits cs5
      if d1 = [] then none else
      let cs7 ← stripLit " ".data cs6
      let (d2, cs8) := takeDigits cs7
      if d2 = [] then none else
      let cs9 ← stripLit ":".data cs8
      match cs9 with
      | e1 :: e2 :: cs10 =>
        if e1.isDigit ∧ e2.isDigit then
          let cs11 ← stripLit ":".data cs10
          match cs11 with
          | f1 :: f2 :: cs12 =>
            if f1.isDigit ∧ f2.isDigit then stripLit "):".data cs12
            else none
          | _ => none
        else none
      | _ => none
    else none
  | _ => none

/-- The matched text `m[0]` of `inlineCommentRE`, if the line matches. -/
def inlineCommentMatch (s : String) : Option String :=
  match inlineRest s.data with
  | some rest => some (String.mk (s.data.take (s.data.length - rest.length)))
  | none => none

/-- Embeds `isCont` (part_000 lines 321-323). -/
def isCont (text : String) : Bool :=
  goHasPrefix text "\t" || goTrim text = ""

/-- Embeds `isDraftLine` (part_000 lines 325-329). -/
def isDraftLine (line : String) : Bool :=
  !goHasPrefix line "File " && !goHasPrefix line diffMarker &&
    (inlineCommentMatch line).isNone

def commentsOf (cl : PatchCL) (file : String) : List CommentInfo :=
  match cl.comments.find? (fun p => p.1 = file) with
  | some p => p.2
  | none => []

/-- Embeds `findComment` (part_000 lines 331-346). -/
def findComment (cl : PatchCL) (hdr file : String) (side lineOld lineNew : Int) :
    Option CommentInfo :=
  let line := if side < 0 then lineOld - 1 else lineNew - 1
  let line := if line < 0 then 0 else line
  (commentsOf cl file).find? (fun c => c.line == line && commentHeader c == hdr)

/-- The five-field identity key comparison of the draft-matching loop
(part_000 line 276). -/
def keyEq (c0 c : CommentInfo) : Bool :=
  c0.path == c.path && c0.side == c.side && c0.line == c.line &&
    c0.patchSet == c.patchSet && c0.inReplyTo == c.inReplyTo

/-- Map insert with overwrite, for the `drafts` map keyed by id. -/
def mapInsert (m : List (String × CommentInfo)) (k : String) (v : CommentInfo) :
    List (String × CommentInfo) :=
  if m.any (fun p => p.1 = k) then m.map (fun p => if p.1 = k then (k, v) else p)
  else m ++ [(k, v)]

/-- Embeds the `drafts` map construction (part_000 lines 181-184). -/
def draftsMapOf (ds : List CommentInfo) : List (String × CommentInfo) :=
  ds.foldl (fun m c => mapInsert m c.id c) []

def mapLookup (m : List (String × CommentInfo)) (k : String) : Option CommentInfo :=
  match m.find? (fun p => p.1 = k) with
  | some p => some p.2
  | none => none

/-- Embeds the matching loop over the `drafts` map (part_000 lines
275-280): every key-matching entry overwrites `c.ID` and is deleted
from the map.  (Go iterates the map in unspecified order; this embedding
iterates in insertion order, which agrees whenever at most one entry
matches.) -/
def matchDraft (m : List (String × CommentInfo)) (c : CommentInfo) :
    CommentInfo × List (String × CommentInfo) :=
  m.foldl
    (fun acc p =>
      if keyEq p.2 c then
        ({ acc.1 with id := p.2.id }, acc.2.filter (fun q => ¬ q.1 = p.2.id))
      else acc)
    (c, m)

/-- The CreateDraft call for one gathered draft (part_000 lines
285-287): the revision id is computed from the patch-set number, which
is then zeroed on the sent comment. -/
def createActionOf (cl : PatchCL) (c : CommentInfo) : Action :=
  Action.createDraft (patchSetRevID cl c.patchSet) { c with patchSet := 0 }

/-- Embeds the deletion pass (part_000 lines 294-307): a DeleteDraft for
every previously known draft still present in the map.  (The source
compares pointers, `drafts[c.ID] != c`; with distinct draft ids this is
the value comparison used here.) -/
def deletePass (cl : PatchCL) (m : List (String × CommentInfo)) : List Action :=
  (cl.drafts.filter (fun c => mapLookup m c.id = some c)).map
    (fun c => Action.deleteDraft (patchSetRevID cl c.patchSet) c.id)

/-- The draft reconciliation of `writePatchSet`: the creates attempted
in parse order, threading the map of still-unmatched known drafts, then
the deletion pass. -/
def reconcileDrafts (cl : PatchCL) (parsed : List CommentInfo) : List Action :=
  let cm := parsed.foldl
    (fun (acc : List Action × List (String × CommentInfo)) c =>
      let mc := matchDraft acc.2 c
      (acc.1 ++ [createActionOf cl mc.1], mc.2))
    ([], draftsMapOf cl.drafts)
  cm.1 ++ deletePass cl cm.2

/-- State of `writePatchSet`'s line scan. -/
structure WPSState where
  currentFile : String
  side : Int
  top : Bool
  lineOld : Int
  lineNew : Int
  inReplyTo : Option CommentInfo
  deriving Repr

def wpsInit : WPSState := ⟨"", 0, false, -1, -1, none⟩

/-- Embeds the line scan of `writePatchSet` (part_000 lines 193-292),
producing the gathered draft comments in order.  The index arithmetic of
the source's `for` loop becomes structural recursion: each step consumes
the head line, and the continuation/draft gathers consume their lines
via `takeWhile`/`dropWhile`.  The fuel argument bounds the iteration
count; `parsedDrafts` supplies sufficient fuel. -/
def wpsGoF (cl : PatchCL) : Nat → List String → WPSState → List CommentInfo
  | 0, _, _ => []
  | _, [], _ => []
  | fuel + 1, line :: rest, st =>
    if goHasPrefix line "File " then
      wpsGoF cl fuel rest
        { st with currentFile := goTrim (String.mk (line.data.drop 5)),
                  lineNew := -1, lineOld := -1, top := true }
    else if goHasPrefix line diffMarker then
      let st := { st with top := false, inReplyTo := none }
      let line1 := String.mk (line.data.drop diffMarker.data.length)
      match diffHunkMatch line1 with
      | some onn => wpsGoF cl fuel rest { st with lineOld := onn.1, lineNew := onn.2 }
      | none =>
        if 1 ≤ st.lineNew ∧ 1 ≤ st.lineOld then
          if goHasPrefix line1 "+" then
            wpsGoF cl fuel rest { st with lineNew := st.lineNew + 1, side := 1 }
          else if goHasPrefix line1 "-" then
            wpsGoF cl fuel rest { st with lineOld := st.lineOld + 1, side := -1 }
          else
            wpsGoF cl fuel rest
              { st with lineNew := st.lineNew + 1, lineOld := st.lineOld + 1, side := 0 }
        else wpsGoF cl fuel rest st
    else
      match inlineCommentMatch line with
      | some m0 =>
        wpsGoF cl fuel (rest.dropWhile isCont)
          { st with inReplyTo := findComment cl m0 st.currentFile st.side st.lineOld st.lineNew }
      | none =>
        if goTrim line = "" then wpsGoF cl fuel rest st
        else
          let body := rest.takeWhile isDraftLine
          let msg := String.join (line :: body)
          let rest1 := rest.dropWhile isDraftLine
          if st.currentFile = "" then wpsGoF cl fuel rest1 st
          else
            let c0 : CommentInfo := { path := st.currentFile, message := msg }
            let c1 :=
              if st.top then c0
              else if st.side < 0 then
                if cl.base = "" then { c0 with side := "PARENT", line := st.lineOld - 1 }
                else { c0 with patchSet := cl.baseRevPS, line := st.lineOld - 1 }
              else { c0 with patchSet := cl.patchRevPS, line := st.lineNew - 1 }
            let c2 := match st.inReplyTo with
              | some r => { c1 with inReplyTo := r.id }
              | none => c1
            c2 :: wpsGoF cl fuel rest1 st

/-- The draft comments gathered from the edited document: the first line
is skipped when it starts with `"CL "`, then the scan runs. -/
def parsedDrafts (cl : PatchCL) (updated : String) : List CommentInfo :=
  let ls := splitAfterNL updated
  let ls1 := match ls with
    | l :: rest => if goHasPrefix l "CL " then rest else l :: rest
    | [] => []
  wpsGoF cl ls1.length ls1 wpsInit

/-- Embeds `writePatchSet` (part_000 lines 173-310): parse the edited
document into draft comments and reconcile them against the previously
known drafts. -/
def writePatchSet (cl : PatchCL) (updated : String) : List Action :=
  reconcileDrafts cl (parsedDrafts cl updated)

/-! The renderer side (show.go showPatchSet lines 231-410), restricted
to already-fetched data. -/

/-- The fetched inputs of `showPatchSet`: the change and patch-set
numbers, the base patch-set number (0 for none), the files of the patch
revision with their fetched diffs, and the per-file comment lists with
drafts appended (as the source assembles into `msgs`). -/
structure RenderInput where
  changeNum : Nat
  patch : Nat
  base : Nat
  files : List (String × DiffInfo)
  msgs : List (String × List CommentInfo)
  deriving Repr

/-- Output state of the per-file rendering: the text emitted so far, the
pending separator, and the draft objects collected into `cl.Drafts`. -/
structure PMState where
  out : String
  sep : String
  drafts : List CommentInfo
  deriving Repr

/-- Embeds the `printMsg` closure (show.go lines 361-380): a draft is
printed as its bare message and collected with `Side` cleared and
`PatchSet` rewritten; a regular comment is printed as its header and
wrapped message. -/
def printMsg (patch base : Nat) (st : PMState) (m : CommentInfo) (isNew : Bool) :
    PMState :=
  if isDraftB m then
    let m1 := { m with side := "" }
    let m2 :=
      if isNew then { m1 with patchSet := patch }
      else if base ≠ 0 then { m1 with patchSet := base }
      else { m1 with patchSet := 0, side := "PARENT" }
    { out := st.out ++ st.sep ++ m.message ++ "\n\n", sep := "",
      drafts := st.drafts ++ [m2] }
  else
    { out := st.out ++ st.sep ++ commentHeader m ++ "\n\n" ++
        "\t" ++ wrapStr m.message "\t" ++ "\n\n",
      sep := "", drafts := st.drafts }

/-- The `Line == 0` leading-message loops (show.go lines 381-388). -/
def popMsgsEq0 (patch base : Nat) (isNew : Bool) :
    List CommentInfo → PMState → List CommentInfo × PMState
  | [], st => ([], st)
  | m :: ms, st =>
    if m.line = 0 then popMsgsEq0 patch base isNew ms (printMsg patch base st m isNew)
    else (m :: ms, st)

/-- The `Line <= line.Old/New` message loops inside the diff-line loop
(show.go lines 392-399). -/
def popMsgsLe (patch base : Nat) (isNew : Bool) (bound : Int) :
    List CommentInfo → PMState → List CommentInfo × PMState
  | [], st => ([], st)
  | m :: ms, st =>
    if m.line ≤ bound then popMsgsLe patch base isNew bound ms (printMsg patch base st m isNew)
    else (m :: ms, st)

/-- Embeds the diff-line loop and the trailing-message loops (show.go
lines 389-407). -/
def renderLines (patch base : Nat) :
    List Line → List CommentInfo → List CommentInfo → PMState → PMState
  | [], oldMs, newMs, st =>
    let st1 := oldMs.foldl (fun s m => printMsg patch base s m false) st
    newMs.foldl (fun s m => printMsg patch base s m true) st1
  | l :: rest, oldMs, newMs, st =>
    let st1 := { st with out := st.out ++ diffMarker ++ l.pfx ++ l.text ++ "\n",
                         sep := "\n" }
    let o := popMsgsLe patch base false (l.old : Int) oldMs st1
    let n := popMsgsLe patch base true (l.new : Int) newMs o.2
    renderLines patch base rest o.1 n.1 n.2

/-- Embeds one iteration of the per-file loop (show.go lines 336-408):
the `File` header, the side split and display sort of the file's
messages, the leading messages, and the diff lines interleaved with
their messages. -/
def renderFile (patch base : Nat) (file : String) (ms : List CommentInfo)
    (diff : DiffInfo) : String × List CommentInfo :=
  let udiff := formatUnifiedDiff diff
  let oldMsgs := sortBy msgsLess (ms.filter (fun m => m.side = "PARENT"))
  let newMsgs := sortBy msgsLess (ms.filter (fun m => ¬ m.side = "PARENT"))
  let st0 : PMState := ⟨"File " ++ file ++ "\n\n", "", []⟩
  let o := popMsgsEq0 patch base false oldMsgs st0
  let n := popMsgsEq0 patch base true newMsgs o.2
  let stF := renderLines patch base udiff o.1 n.1 n.2
  (stF.out ++ stF.sep, stF.drafts)

def msgsLookup (ms : List (String × List CommentInfo)) (file : String) :
    List CommentInfo :=
  match ms.find? (fun p => p.1 = file) with
  | some p => p.2
  | none => []

/-- Embeds the document-producing part of `showPatchSet` (show.go lines
326-409): the `CL` header line and the sorted per-file renderings.
Returns the document and the drafts collected by `printMsg`. -/
def showPatchSetR (inp : RenderInput) : String × List CommentInfo :=
  let hdr := "CL " ++ toString inp.changeNum ++ " Patch Set " ++ toString inp.patch ++
    (if inp.base ≠ 0 then " (against base patch set " ++ toString inp.base ++ ")"
     else "") ++ "\n\n"
  (sortBy (fun a b => a.1 < b.1) inp.files).foldl
    (fun acc fd =>
      let r := renderFile inp.patch inp.base fd.1 (msgsLookup inp.msgs fd.1) fd.2
      (acc.1 ++ r.1, acc.2 ++ r.2))
    (hdr, [])


/-- A minimal fetched snapshot: change 7 at patch set 1, no base, one
file `f` whose diff is a single common block, and one file-level draft
(`authorEmail = none`), whose `path` is empty because Gerrit comment-map
responses omit the `path` field. -/
def rtSnapshot : RenderInput :=
  { changeNum := 7, patch := 1, base := 0,
    files := [("f", ⟨[], [⟨[], [], ["x"]⟩]⟩)],
    msgs := [("f", [{ id := "d1", message := "draftmsg", updated := 5 }])] }

/-- The `CL` value after rendering `rtSnapshot`: `cl.Drafts` holds the
draft objects collected (and mutated) by `printMsg`, and the comments
map holds the same objects. -/
def rtCL : PatchCL :=
  { drafts := (showPatchSetR rtSnapshot).2,
    comments := [("f", (showPatchSetR rtSnapshot).2)],
    base := "", baseRevPS := 0, patchRevPS := 1,
    revisions := [("rev1", 1)] }

/-- C1 (refuted; a bug in the code): rendering `rtSnapshot` and feeding
the document back, completely unmodified, does not yield zero mutation
actions.  The renderer collects the draft with `PatchSet` rewritten to 1
and `Path` still empty (comment-map responses omit it), while the parser
builds the gathered draft with `Path` set to `f` and `PatchSet = 0` (a
file-level comment under no base), so the five-field identity key never
matches: the run emits a CreateDraft with no id — a duplicate — and a
DeleteDraft of the existing draft. -/
theorem round_trip_c1 :
    (showPatchSetR rtSnapshot).1 = "CL 7 Patch Set 1\n\nFile f\n\ndraftmsg\n\n" ∧
    (showPatchSetR rtSnapshot).2 =
      [{ patchSet := 1, id := "d1", message := "draftmsg", updated := 5 }] ∧
    writePatchSet rtCL (showPatchSetR rtSnapshot).1 =
      [Action.createDraft "" { path := "f", message := "draftmsg\n\n" },
        Action.deleteDraft "rev1" "d1"] ∧
    writePatchSet rtCL (showPatchSetR rtSnapshot).1 ≠ [] := by
  decide


/-! Facts about the draft reconciliation (claim C6). -/

/-- The identity-key tuple of a comment. -/
def keyOf (c : CommentInfo) : String × String × Int × Nat × String :=
  (c.path, c.side, c.line, c.patchSet, c.inReplyTo)

theorem keyEq_iff (c0 c : CommentInfo) : keyEq c0 c = true ↔ keyOf c0 = keyOf c := by
  unfold keyEq keyOf
  simp [Prod.ext_iff]
  tauto

/-- One step of the `matchDraft` fold, as a named function. -/
def matchStep (c : CommentInfo) (acc : CommentInfo × List (String × CommentInfo))
    (p : String × CommentInfo) : CommentInfo × List (String × CommentInfo) :=
  if keyEq p.2 c then
    ({ acc.1 with id := p.2.id }, acc.2.filter (fun q => ¬ q.1 = p.2.id))
  else acc

theorem matchDraft_eq (m : List (String × CommentInfo)) (c : CommentInfo) :
    matchDraft m c = m.foldl (matchStep c) (c, m) := by
  unfold matchDraft
  exact List.foldl_ext _ (matchStep c) _ (fun acc p _ => rfl)

theorem matchFold_nomatch (c : CommentInfo) :
    ∀ (L : List (String × CommentInfo)) (acc : CommentInfo × List (String × CommentInfo)),
      (∀ p ∈ L, keyEq p.2 c = false) → L.foldl (matchStep c) acc = acc := by
  intro L
  induction L with
  | nil => intro acc _; rfl
  | cons p L ih =>
    intro acc h
    rw [List.foldl_cons]
    have hp : keyEq p.2 c = false := h p (List.mem_cons_self p L)
    have hstep : matchStep c acc p = acc := by
      unfold matchStep
      rw [hp]
      simp
    rw [hstep]
    exact ih acc (fun q hq => h q (List.mem_cons_of_mem p hq))

theorem find?_eq_head_dropWhile {α : Type} (p : α → Bool) (l : List α) :
    l.find? p = (l.dropWhile (fun x => ! p x)).head? := by
  induction l with
  | nil => rfl
  | cons a l ih =>
    by_cases ha : p a = true
    · rw [List.find?_cons_of_pos _ ha, List.dropWhile_cons]
      simp [ha]
    · have ha' : p a = false := Bool.eq_false_iff.mpr ha
      rw [List.find?_cons_of_neg _ ha, List.dropWhile_cons]
      simp [ha']
      exact ih

theorem find?_filter_of_imp {α : Type} (p q : α → Bool) (l : List α)
    (h : ∀ x ∈ l, q x = false → p x = false) :
    (l.filter q).find? p = l.find? p := by
  induction l with
  | nil => rfl
  | cons a l ih =>
    have ihl := ih (fun x hx => h x (List.mem_cons_of_mem a hx))
    rw [List.filter_cons]
    by_cases hq : q a = true
    · rw [if_pos hq]
      by_cases hp : p a = true
      · rw [List.find?_cons_of_pos _ hp, List.find?_cons_of_pos _ hp]
      · have hp' := Bool.eq_false_iff.mpr hp
        rw [List.find?_cons_of_neg _ hp, List.find?_cons_of_neg _ hp]
        exact ihl
    · have hq' : q a = false := Bool.eq_false_iff.mpr hq
      rw [if_neg (by simp [hq'])]
      have hp' : p a = false := h a (List.mem_cons_self a l) hq'
      rw [List.find?_cons_of_neg _ (by simp [hp'])]
      exact ihl

theorem filter_of_map {α β : Type} (f : α → β) (q : β → Bool) (l : List α) :
    (l.map f).filter q = (l.filter (fun x => q (f x))).map f := by
  induction l with
  | nil => rfl
  | cons a l ih =>
    rw [List.map_cons, List.filter_cons, List.filter_cons]
    by_cases h : q (f a) = true
    · rw [if_pos h, if_pos h, List.map_cons, ih]
    · rw [if_neg h, if_neg h, ih]

theorem filter_mem_of_sublist {α : Type} [DecidableEq α] :
    ∀ {l rem : List α}, rem.Sublist l → l.Nodup →
      l.filter (fun x => x ∈ rem) = rem := by
  intro l rem hsub
  induction hsub with
  | slnil => intro _; rfl
  | cons a hsub ih =>
    intro hnd
    rename_i rem1 l1
    rw [List.filter_cons]
    have hna : a ∉ rem1 := fun hm => (List.nodup_cons.mp hnd).1 (hsub.subset hm)
    rw [if_neg (by simp [hna])]
    exact ih (List.nodup_cons.mp hnd).2
  | cons₂ a hsub ih =>
    intro hnd
    rename_i rem1 l1
    rw [List.filter_cons]
    rw [if_pos (by simp)]
    have hal1 : a ∉ l1 := (List.nodup_cons.mp hnd).1
    have : l1.filter (fun x => x ∈ a :: rem1) = l1.filter (fun x => x ∈ rem1) := by
      refine List.filter_congr ?_
      intro x hx
      have hxa : ¬ x = a := fun he => hal1 (he ▸ hx)
      simp [List.mem_cons, hxa]
    rw [this]
    rw [ih (List.nodup_cons.mp hnd).2]


theorem draftsMapOf_go :
    ∀ (ds : List CommentInfo) (acc : List (String × CommentInfo)),
      (ds.map CommentInfo.id).Nodup →
      (∀ c ∈ ds, ∀ p ∈ acc, ¬ p.1 = c.id) →
      ds.foldl (fun m c => mapInsert m c.id c) acc =
        acc ++ ds.map (fun c => (c.id, c)) := by
  intro ds
  induction ds with
  | nil => intro acc _ _; simp
  | cons c ds ih =>
    intro acc hnd hdis
    rw [List.foldl_cons]
    have hins : mapInsert acc c.id c = acc ++ [(c.id, c)] := by
      unfold mapInsert
      rw [if_neg]
      intro hany
      rw [List.any_eq_true] at hany
      obtain ⟨p, hp, he⟩ := hany
      simp only [decide_eq_true_eq] at he
      exact hdis c (List.mem_cons_self c ds) p hp he
    rw [hins]
    rw [List.map_cons] at hnd
    have hnd' := (List.nodup_cons.mp hnd).2
    have hcid := (List.nodup_cons.mp hnd).1
    rw [ih (acc ++ [(c.id, c)]) hnd' ?_]
    · simp
    · intro c' hc' p hp
      rcases List.mem_append.mp hp with hp | hp
      · exact hdis c' (List.mem_cons_of_mem c hc') p hp
      · simp only [List.mem_singleton] at hp
        subst hp
        intro he
        apply hcid
        have he' : c.id = c'.id := he
        rw [he']
        exact List.mem_map_of_mem CommentInfo.id hc'

theorem draftsMapOf_eq (ds : List CommentInfo)
    (h : (ds.map CommentInfo.id).Nodup) :
    draftsMapOf ds = ds.map (fun c => (c.id, c)) := by
  unfold draftsMapOf
  rw [draftsMapOf_go ds [] h (by simp)]
  simp

theorem matchDraft_spec (rem : List CommentInfo) (c : CommentInfo)
    (hkeys : (rem.map keyOf).Nodup) (hids : (rem.map CommentInfo.id).Nodup) :
    matchDraft (rem.map (fun c0 => (c0.id, c0))) c =
      ((match rem.find? (fun c0 => keyEq c0 c) with
        | some c0 => { c with id := c0.id }
        | none => c),
       (rem.filter (fun c0 => ¬ keyEq c0 c = true)).map (fun c0 => (c0.id, c0))) := by
  rw [matchDraft_eq]
  have hfd := find?_eq_head_dropWhile (fun c0 => keyEq c0 c) rem
  cases hdw : rem.dropWhile (fun c0 => ! keyEq c0 c) with
  | nil =>
    have hnone : rem.find? (fun c0 => keyEq c0 c) = none := by rw [hfd, hdw]; rfl
    have hall : ∀ x ∈ rem, keyEq x c = false := by
      intro x hx
      have := List.find?_eq_none.mp hnone x hx
      exact Bool.eq_false_iff.mpr this
    rw [matchFold_nomatch c _ _ ?_]
    · rw [hnone]
      have : rem.filter (fun c0 => ¬ keyEq c0 c = true) = rem :=
        List.filter_eq_self.mpr (fun a ha => by simp [hall a ha])
      rw [this]
    · intro p hp
      obtain ⟨c0, hc0, rfl⟩ := List.mem_map.mp hp
      exact hall c0 hc0
  | cons p post =>
    have hsplit : rem = rem.takeWhile (fun c0 => ! keyEq c0 c) ++ p :: post := by
      conv_lhs => rw [← List.takeWhile_append_dropWhile (fun c0 => ! keyEq c0 c) rem, hdw]
    have hpc : keyEq p c = true := by
      have hh := List.head?_dropWhile_not (fun c0 => ! keyEq c0 c) rem
      rw [hdw] at hh
      simp only [List.head?_cons] at hh
      simpa using hh
    have hsome : rem.find? (fun c0 => keyEq c0 c) = some p := by rw [hfd, hdw]; rfl
    have hpre : ∀ x ∈ rem.takeWhile (fun c0 => ! keyEq c0 c), keyEq x c = false := by
      intro x hx
      have hmx := List.mem_takeWhile_imp hx
      simpa using hmx
    have hpmem : p ∈ rem := by rw [hsplit]; simp
    have hpost : ∀ x ∈ post, keyEq x c = false := by
      intro x hx
      by_contra hxx
      have hxc : keyEq x c = true := by
        cases hb : keyEq x c
        · exact absurd hb hxx
        · rfl
      have hkx : keyOf x = keyOf p :=
        (keyEq_iff x c).mp hxc |>.trans ((keyEq_iff p c).mp hpc).symm
      have hnd2 : (List.map keyOf (p :: post)).Nodup := by
        have h1 : (List.map keyOf (rem.takeWhile (fun c0 => ! keyEq c0 c)) ++
            List.map keyOf (p :: post)).Nodup := by
          rw [← List.map_append, ← hsplit]
          exact hkeys
        exact h1.of_append_right
      rw [List.map_cons, List.nodup_cons] at hnd2
      exact hnd2.1 (hkx ▸ List.mem_map_of_mem keyOf hx)
    rw [hsome]
    have hmsplit : rem.map (fun c0 => (c0.id, c0)) =
        (rem.takeWhile (fun c0 => ! keyEq c0 c)).map (fun c0 => (c0.id, c0)) ++
          (p.id, p) :: post.map (fun c0 => (c0.id, c0)) := by
      conv_lhs => rw [hsplit]
      simp
    have hpreP : ∀ q ∈ (rem.takeWhile (fun c0 => ! keyEq c0 c)).map
        (fun c0 => (c0.id, c0)), keyEq q.2 c = false := by
      intro q hq
      obtain ⟨c0, hc0, rfl⟩ := List.mem_map.mp hq
      exact hpre c0 hc0
    have hpostP : ∀ q ∈ post.map (fun c0 => (c0.id, c0)), keyEq q.2 c = false := by
      intro q hq
      obtain ⟨c0, hc0, rfl⟩ := List.mem_map.mp hq
      exact hpost c0 hc0
    have key : ∀ acc : CommentInfo × List (String × CommentInfo),
        (rem.map (fun c0 => (c0.id, c0))).foldl (matchStep c) acc =
          ({ acc.1 with id := p.id }, acc.2.filter (fun q => ¬ q.1 = p.id)) := by
      intro acc
      conv_lhs => rw [hmsplit]
      rw [List.foldl_append, matchFold_nomatch c _ _ hpreP, List.foldl_cons]
      have hstep : matchStep c acc (p.id, p) =
          ({ acc.1 with id := p.id }, acc.2.filter (fun q => ¬ q.1 = p.id)) := by
        unfold matchStep
        rw [if_pos hpc]
      rw [hstep]
      exact matchFold_nomatch c _ _ hpostP
    rw [key (c, rem.map (fun c0 => (c0.id, c0)))]
    have hfil : (rem.map (fun c0 => (c0.id, c0))).filter (fun q => ¬ q.1 = p.id) =
        (rem.filter (fun c0 => ¬ keyEq c0 c = true)).map (fun c0 => (c0.id, c0)) := by
      rw [filter_of_map]
      refine congrArg _ (List.filter_congr ?_)
      intro c0 hc0
      have hiff : (c0.id = p.id) ↔ (keyEq c0 c = true) := by
        constructor
        · intro hid
          have hc0p : c0 = p := List.inj_on_of_nodup_map hids hc0 hpmem hid
          rw [hc0p]
          exact hpc
        · intro hk
          have hkk : keyOf c0 = keyOf p :=
            (keyEq_iff c0 c).mp hk |>.trans ((keyEq_iff p c).mp hpc).symm
          have hc0p : c0 = p := List.inj_on_of_nodup_map hkeys hc0 hpmem hkk
          rw [hc0p]
      simp only [decide_eq_decide]
      exact not_congr hiff
    rw [hfil]


/-- The reconciliation as plain recursion over the parsed drafts. -/
def reconcileGo (cl : PatchCL) :
    List CommentInfo → List (String × CommentInfo) → List Action
  | [], m => deletePass cl m
  | c :: cs, m =>
    let mc := matchDraft m c
    createActionOf cl mc.1 :: reconcileGo cl cs mc.2

theorem reconcileFold_go (cl : PatchCL) :
    ∀ (parsed : List CommentInfo) (acts : List Action)
      (m : List (String × CommentInfo)),
      (parsed.foldl
        (fun (acc : List Action × List (String × CommentInfo)) c =>
          let mc := matchDraft acc.2 c
          (acc.1 ++ [createActionOf cl mc.1], mc.2))
        (acts, m)).1 ++
        deletePass cl
          (parsed.foldl
            (fun (acc : List Action × List (String × CommentInfo)) c =>
              let mc := matchDraft acc.2 c
              (acc.1 ++ [createActionOf cl mc.1], mc.2))
            (acts, m)).2 =
      acts ++ reconcileGo cl parsed m := by
  intro parsed
  induction parsed with
  | nil => intro acts m; rfl
  | cons c cs ih =>
    intro acts m
    rw [List.foldl_cons]
    have := ih (acts ++ [createActionOf cl (matchDraft m c).1]) (matchDraft m c).2
    rw [this]
    simp [reconcileGo]

theorem reconcileDrafts_eq (cl : PatchCL) (parsed : List CommentInfo) :
    reconcileDrafts cl parsed = reconcileGo cl parsed (draftsMapOf cl.drafts) := by
  unfold reconcileDrafts
  exact reconcileFold_go cl parsed [] (draftsMapOf cl.drafts)

theorem mapLookup_pairs (rem : List CommentInfo) (k : String) :
    mapLookup (rem.map (fun c0 => (c0.id, c0))) k =
      rem.find? (fun c0 => c0.id = k) := by
  unfold mapLookup
  rw [List.find?_map]
  cases hf : rem.find? ((fun p => decide (p.1 = k)) ∘ (fun c0 => (c0.id, c0))) with
  | none =>
    have : rem.find? (fun c0 => c0.id = k) = none := by
      rw [List.find?_eq_none] at hf ⊢
      intro x hx
      exact hf x hx
    rw [this]
    rfl
  | some x =>
    have : rem.find? (fun c0 => c0.id = k) = some x := hf
    rw [this]
    rfl

theorem deletePass_pairs (cl : PatchCL) (rem : List CommentInfo)
    (hsub : rem.Sublist cl.drafts)
    (hids : (cl.drafts.map CommentInfo.id).Nodup) :
    deletePass cl (rem.map (fun c0 => (c0.id, c0))) =
      rem.map (fun c0 => Action.deleteDraft (patchSetRevID cl c0.patchSet) c0.id) := by
  unfold deletePass
  have hnd : cl.drafts.Nodup := List.Nodup.of_map _ hids
  have hcong : cl.drafts.filter
      (fun c => mapLookup (rem.map (fun c0 => (c0.id, c0))) c.id = some c) =
      cl.drafts.filter (fun c => c ∈ rem) := by
    refine List.filter_congr ?_
    intro c hc
    rw [mapLookup_pairs]
    simp only [decide_eq_decide]
    constructor
    · intro hf
      exact List.mem_of_find?_eq_some hf
    · intro hm
      cases hf : rem.find? (fun c0 => c0.id = c.id) with
      | none =>
        exfalso
        exact absurd (by simp : decide (c.id = c.id) = true)
          (List.find?_eq_none.mp hf c hm)
      | some x =>
        have hx : x ∈ cl.drafts := hsub.subset (List.mem_of_find?_eq_some hf)
        have hxid : x.id = c.id := by
          have := List.find?_some hf
          simpa using this
        have : x = c := List.inj_on_of_nodup_map hids hx hc hxid
        rw [this]
  rw [hcong, filter_mem_of_sublist hsub hnd]

theorem reconcileGo_spec (cl : PatchCL)
    (hids : (cl.drafts.map CommentInfo.id).Nodup)
    (hkeys : (cl.drafts.map keyOf).Nodup) :
    ∀ (parsed rem : List CommentInfo),
      rem.Sublist cl.drafts →
      (parsed.map keyOf).Nodup →
      reconcileGo cl parsed (rem.map (fun c0 => (c0.id, c0))) =
        parsed.map (fun c => createActionOf cl
          (match rem.find? (fun c0 => keyEq c0 c) with
           | some c0 => { c with id := c0.id }
           | none => c)) ++
        (rem.filter (fun c0 => ¬ parsed.any (fun c => keyEq c0 c) = true)).map
          (fun c0 => Action.deleteDraft (patchSetRevID cl c0.patchSet) c0.id) := by
  intro parsed
  induction parsed with
  | nil =>
    intro rem hsub _
    unfold reconcileGo
    rw [deletePass_pairs cl rem hsub hids]
    have : rem.filter (fun c0 => ¬ ([] : List CommentInfo).any (fun c => keyEq c0 c) = true) =
        rem := List.filter_eq_self.mpr (fun a _ => by simp)
    rw [this]
    simp
  | cons c cs ih =>
    intro rem hsub hpk
    have hremk : (rem.map keyOf).Nodup := (hsub.map keyOf).nodup hkeys
    have hremi : (rem.map CommentInfo.id).Nodup := (hsub.map CommentInfo.id).nodup hids
    show (let mc := matchDraft (rem.map (fun c0 => (c0.id, c0))) c
      createActionOf cl mc.1 :: reconcileGo cl cs mc.2) = _
    rw [matchDraft_spec rem c hremk hremi]
    dsimp only
    have hsub' : (rem.filter (fun c0 => ¬ keyEq c0 c = true)).Sublist cl.drafts :=
      (List.filter_sublist rem).trans hsub
    rw [List.map_cons] at hpk
    have hpk' : (cs.map keyOf).Nodup := (List.nodup_cons.mp hpk).2
    have hkc : keyOf c ∉ cs.map keyOf := (List.nodup_cons.mp hpk).1
    rw [ih (rem.filter (fun c0 => ¬ keyEq c0 c = true)) hsub' hpk']
    have hfind : ∀ c' ∈ cs,
        (rem.filter (fun c0 => ¬ keyEq c0 c = true)).find? (fun c0 => keyEq c0 c') =
          rem.find? (fun c0 => keyEq c0 c') := by
      intro c' hc'
      refine find?_filter_of_imp _ _ rem ?_
      intro x hx hdrop
      by_contra hmatch
      have hx1 : keyEq x c = true := by
        have := of_decide_eq_false hdrop
        by_cases hb : keyEq x c = true
        · exact hb
        · exact absurd (Bool.eq_false_iff.mpr hb) (fun hf => this (by rw [hf]; simp))
      have hx2 : keyEq x c' = true := by
        cases hb : keyEq x c'
        · exact absurd hb (fun hf => hmatch (by rw [hf]))
        · rfl
      have : keyOf c = keyOf c' :=
        ((keyEq_iff x c).mp hx1).symm.trans ((keyEq_iff x c').mp hx2)
      exact hkc (this ▸ List.mem_map_of_mem keyOf hc')
    have hmap : cs.map (fun c' => createActionOf cl
        (match (rem.filter (fun c0 => ¬ keyEq c0 c = true)).find?
            (fun c0 => keyEq c0 c') with
         | some c0 => { c' with id := c0.id }
         | none => c')) =
        cs.map (fun c' => createActionOf cl
          (match rem.find? (fun c0 => keyEq c0 c') with
           | some c0 => { c' with id := c0.id }
           | none => c')) := by
      refine List.map_congr_left ?_
      intro c' hc'
      rw [hfind c' hc']
    have hdel : (rem.filter (fun c0 => ¬ keyEq c0 c = true)).filter
        (fun c0 => ¬ cs.any (fun cc => keyEq c0 cc) = true) =
        rem.filter (fun c0 => ¬ ((c :: cs).any (fun cc => keyEq c0 cc)) = true) := by
      rw [List.filter_filter]
      refine List.filter_congr ?_
      intro x _
      rw [List.any_cons]
      cases hxc : keyEq x c <;> cases hxcs : cs.any (fun cc => keyEq x cc) <;>
        simp [hxc, hxcs]
    rw [hmap, hdel, List.map_cons]
    rfl

/-- C6: with pairwise distinct draft ids, pairwise distinct identity
keys among the known drafts, and pairwise distinct identity keys among
the parsed drafts, the reconciliation creates exactly one draft per
parsed comment — carrying the matching known draft id (an update in
place) when the five-field key `(path, side, line, patchSet,
inReplyTo)` matches a known draft, and an empty id otherwise — and
deletes exactly the known drafts matched by no parsed comment; in
particular a key-matched known draft is never deleted. -/
theorem drafts_key_match_c6 (cl : PatchCL) (parsed : List CommentInfo)
    (hids : (cl.drafts.map CommentInfo.id).Nodup)
    (hkeys : (cl.drafts.map keyOf).Nodup)
    (hpk : (parsed.map keyOf).Nodup) :
    reconcileDrafts cl parsed =
      parsed.map (fun c => createActionOf cl
        (match cl.drafts.find? (fun c0 => keyEq c0 c) with
         | some c0 => { c with id := c0.id }
         | none => c)) ++
      (cl.drafts.filter (fun c0 => ¬ parsed.any (fun c => keyEq c0 c) = true)).map
        (fun c0 => Action.deleteDraft (patchSetRevID cl c0.patchSet) c0.id) ∧
    (∀ c0 ∈ cl.drafts, parsed.any (fun c => keyEq c0 c) = true →
      ∀ rev, Action.deleteDraft rev c0.id ∉ reconcileDrafts cl parsed) := by
  have heq : reconcileDrafts cl parsed =
      parsed.map (fun c => createActionOf cl
        (match cl.drafts.find? (fun c0 => keyEq c0 c) with
         | some c0 => { c with id := c0.id }
         | none => c)) ++
      (cl.drafts.filter (fun c0 => ¬ parsed.any (fun c => keyEq c0 c) = true)).map
        (fun c0 => Action.deleteDraft (patchSetRevID cl c0.patchSet) c0.id) := by
    rw [reconcileDrafts_eq, draftsMapOf_eq cl.drafts hids]
    exact reconcileGo_spec cl hids hkeys parsed cl.drafts (List.Sublist.refl _) hpk
  refine ⟨heq, ?_⟩
  intro c0 hc0 hany rev hmem
  rw [heq] at hmem
  rcases List.mem_append.mp hmem with hmem | hmem
  · obtain ⟨c, -, habs⟩ := List.mem_map.mp hmem
    exact absurd habs (by unfold createActionOf; intro h; cases h)
  · obtain ⟨c1, hc1, habs⟩ := List.mem_map.mp hmem
    have hc1m := (List.mem_filter.mp hc1).1
    have hc1p := (List.mem_filter.mp hc1).2
    have hid : c1.id = c0.id := by
      have := congrArg (fun a => match a with
        | Action.deleteDraft _ i => i
        | _ => "") habs
      simpa using this
    have : c1 = c0 := List.inj_on_of_nodup_map hids hc1m hc0 hid
    rw [this] at hc1p
    rw [hany] at hc1p
    simp at hc1p


/-- A concrete fetched snapshot for exercising the reconciliation: two
known drafts with distinct ids and keys. -/
def c6CL : PatchCL :=
  { drafts := [{ patchSet := 2, id := "a", path := "f", line := 3 },
               { patchSet := 2, id := "b", path := "g", line := 9 }],
    comments := [], base := "", baseRevPS := 0, patchRevPS := 2,
    revisions := [("r2", 2)] }

/-- Two parsed drafts: the first key-matches known draft `a`, the
second matches nothing. -/
def c6Parsed : List CommentInfo :=
  [{ patchSet := 2, path := "f", line := 3, message := "m1" },
   { patchSet := 2, path := "h", line := 1, message := "m2" }]

/-- Witness for the C6 theorem at concrete inputs: the key-matched
draft is updated in place (its id reused, no deletion), the unmatched
parsed draft is created fresh, and the never-matched known draft `b` is
deleted. -/
theorem drafts_key_match_c6_witness :
    reconcileDrafts c6CL c6Parsed =
      [Action.createDraft "r2" { id := "a", path := "f", line := 3, message := "m1" },
       Action.createDraft "r2" { path := "h", line := 1, message := "m2" },
       Action.deleteDraft "r2" "b"] :=
  ((drafts_key_match_c6 c6CL c6Parsed (by decide) (by decide) (by decide)).1).trans
    (by decide)

end Gerrit
